import Mathlib

/-!
Shallow embedding of the STM32 DFU firmware loader of the Affine_IO repository
(`dfu_loader.c`, the layout-aware variant; the simpler variant's write loop is
embedded separately as `writeLoopA`).  C strings are modelled as `List Char`,
machine integers as `Nat` with explicit `% 2^32` where 32-bit wrap-around is
performed by the source; `strtoul` saturation at `ULONG_MAX` is modelled with
`min`.  The USB transport is modelled by oracles: a list of GETSTATUS replies
for the state-machine loop, and a success oracle `cmd : Nat → Bool` deciding
the outcome of the n-th fallible DFU command of a flash run.  Non-termination
of a source loop (zero transfer size, zero page size) is modelled by an
`Option` result, `none` standing for a run that never returns.
-/

namespace AffineIO

/-- Size of the 32-bit unsigned range, `UINT32_MAX + 1`; Windows `unsigned long`
and `uint32_t` arithmetic in the source wraps modulo this constant. -/
def U32 : Nat := 4294967296

/-- Decimal digit test (`*cursor >= '0' && *cursor <= '9'` in the source). -/
def isDecDigit (c : Char) : Bool := '0' ≤ c && c ≤ '9'

/-- Hexadecimal digit test, as accepted by `strtoul(..., 16)`. -/
def isHexDigit (c : Char) : Bool :=
  isDecDigit c || ('a' ≤ c && c ≤ 'f') || ('A' ≤ c && c ≤ 'F')

/-- Numeric value of a hexadecimal digit. -/
def hexVal (c : Char) : Nat :=
  if isDecDigit c then c.toNat - '0'.toNat
  else if 'a' ≤ c && c ≤ 'f' then c.toNat - 'a'.toNat + 10
  else c.toNat - 'A'.toNat + 10

/-- Consume leading decimal digits, accumulating their value (unbounded;
callers apply the saturation or wrap-around the source performs). -/
def takeDec : Nat → List Char → Nat × List Char
  | acc, [] => (acc, [])
  | acc, c :: rest =>
    if isDecDigit c then takeDec (acc * 10 + (c.toNat - '0'.toNat)) rest
    else (acc, c :: rest)

/-- Consume leading hexadecimal digits, accumulating their value. -/
def takeHex : Nat → List Char → Nat × List Char
  | acc, [] => (acc, [])
  | acc, c :: rest =>
    if isHexDigit c then takeHex (acc * 16 + hexVal c) rest
    else (acc, c :: rest)

theorem takeDec_length (acc : Nat) (cs : List Char) :
    (takeDec acc cs).2.length ≤ cs.length := by
  induction cs generalizing acc with
  | nil => simp [takeDec]
  | cons c rest ih =>
    simp only [takeDec]
    split
    · exact (ih _).trans (by simp)
    · simp

theorem takeHex_length (acc : Nat) (cs : List Char) :
    (takeHex acc cs).2.length ≤ cs.length := by
  induction cs generalizing acc with
  | nil => simp [takeHex]
  | cons c rest ih =>
    simp only [takeHex]
    split
    · exact (ih _).trans (by simp)
    · simp

/-- Embedding of `strtoul(cursor, &endptr, 16)` as used by
`parse_alt_memory_layout`: an optional `0x`/`0X` prefix followed by hex digits;
if no digit follows the prefix the subject sequence is just the leading `0`.
The value saturates at `ULONG_MAX` (32-bit on the source's target). -/
def strtoul16 (cs : List Char) : Nat × List Char :=
  match cs with
  | '0' :: c1 :: rest =>
    if c1 = 'x' ∨ c1 = 'X' then
      match rest with
      | d :: _ =>
        if isHexDigit d then
          let p := takeHex 0 rest
          (min p.1 (U32 - 1), p.2)
        else (0, c1 :: rest)
      | [] => (0, c1 :: rest)
    else
      let p := takeHex 0 cs
      (min p.1 (U32 - 1), p.2)
  | _ =>
    let p := takeHex 0 cs
    (min p.1 (U32 - 1), p.2)

/-- Embedding of `strtoul(cursor, &endptr, 10)`: leading decimal digits,
value saturating at `ULONG_MAX`; with no leading digit the value is `0` and
`endptr` stays at the start. -/
def strtoul10 (cs : List Char) : Nat × List Char :=
  let p := takeDec 0 cs
  (min p.1 (U32 - 1), p.2)

theorem strtoul16_length (cs : List Char) : (strtoul16 cs).2.length ≤ cs.length := by
  unfold strtoul16
  split
  · split
    · split
      · split
        · exact (takeHex_length _ _).trans (by simp)
        · simp
      · simp
    · exact takeHex_length _ _
  · exact takeHex_length _ _

theorem strtoul10_length (cs : List Char) : (strtoul10 cs).2.length ≤ cs.length :=
  takeDec_length 0 cs

/-- Unit-suffix step of `parse_size_bytes`: multiplier 1024 for `K`/`k`,
1024*1024 for `M`/`m`, and a skipped `B`/`b` with multiplier 1. -/
def unitSuffix : List Char → Nat × List Char
  | 'K' :: t => (1024, t)
  | 'k' :: t => (1024, t)
  | 'M' :: t => (1048576, t)
  | 'm' :: t => (1048576, t)
  | 'B' :: t => (1, t)
  | 'b' :: t => (1, t)
  | r => (1, r)

/-- Trailing type-letter step of `parse_size_bytes`: a single `g`/`G` is
skipped. -/
def skipG : List Char → List Char
  | 'g' :: t => t
  | 'G' :: t => t
  | r => r

theorem unitSuffix_length (cs : List Char) : (unitSuffix cs).2.length ≤ cs.length := by
  unfold unitSuffix
  split <;> simp

theorem skipG_length (cs : List Char) : (skipG cs).length ≤ cs.length := by
  unfold skipG
  split <;> simp

/-- Embedding of `parse_size_bytes`: a decimal number (accumulated with 32-bit
wrap-around in the source, hence the final `% U32`), an optional `K`/`M`/`B`
unit suffix, then an optional `g`/`G` type letter that is skipped. -/
def parse_size_bytes (cs : List Char) : Nat × List Char :=
  let p := takeDec 0 cs
  let q := unitSuffix p.2
  ((p.1 * q.1) % U32, skipG q.2)

theorem parse_size_bytes_length (cs : List Char) :
    (parse_size_bytes cs).2.length ≤ cs.length := by
  unfold parse_size_bytes
  have h1 := takeDec_length 0 cs
  have h2 := unitSuffix_length (takeDec 0 cs).2
  have h3 := skipG_length (unitSuffix (takeDec 0 cs).2).2
  dsimp only
  omega

/-- Flash memory segment, `stm32_dfu_segment_t`: half-open address range
`[start, end_)` with an erase page size. -/
structure Segment where
  start : Nat
  end_ : Nat
  page_size : Nat
deriving DecidableEq, Repr

/-- Suffix of a character list just after its first `/`, the embedding of
`strchr(cursor, '/')` followed by `++cursor`. -/
def afterSlash : List Char → Option (List Char)
  | [] => none
  | c :: rest => if c = '/' then some rest else afterSlash rest

theorem afterSlash_length {cs r : List Char} (h : afterSlash cs = some r) :
    r.length < cs.length := by
  induction cs with
  | nil => simp [afterSlash] at h
  | cons c rest ih =>
    simp only [afterSlash] at h
    split at h
    · cases h; simp
    · exact (ih h).trans (by simp)

/-- Guard `cursor[0] == '0' && (cursor[1] == 'x' || cursor[1] == 'X')` of the
layout-parser loop. -/
def guard0x : List Char → Bool
  | '0' :: x :: _ => x = 'x' || x = 'X'
  | _ => false

/-- Loop body of `parse_alt_memory_layout`: scan for `/`, require `0x`/`0X`,
parse a hex start address, require `/`, parse a decimal page count, require
`*`, parse a page size; a parsed triple with nonzero page size is stored when
fewer than 8 segments are stored so far (`segments[8]` in the source), with
`end = start + (uint32_t)(count * page_size)` in 32-bit arithmetic.  Malformed
groups are skipped, resuming at `endptr` exactly like the source.  The fuel
argument only bounds the iteration count so that the recursion is structural;
`parseLoop_fuel_irrelevant` shows any fuel above the string length gives the
source loop's answer. -/
def parseLoop : Nat → List Char → List Segment → List Segment
  | 0, _, acc => acc
  | fuel + 1, cs, acc =>
    match afterSlash cs with
    | none => acc
    | some c1 =>
      if guard0x c1 then
        match (strtoul16 c1).2 with
        | '/' :: c2 =>
          match (strtoul10 c2).2 with
          | '*' :: c3 =>
            let pg := (parse_size_bytes c3).1
            let acc' := if pg = 0 then acc
              else if acc.length < 8 then
                acc ++ [⟨(strtoul16 c1).1,
                         ((strtoul16 c1).1 + ((strtoul10 c2).1 * pg) % U32) % U32,
                         pg⟩]
              else acc
            parseLoop fuel (parse_size_bytes c3).2 acc'
          | _ => parseLoop fuel (strtoul10 c2).2 acc
        | _ => parseLoop fuel (strtoul16 c1).2 acc
      else parseLoop fuel c1 acc

/-- Embedding of `parse_alt_memory_layout`: the list of segments decoded from
an alt-setting name string (at most 8, in order of appearance). -/
def parse_alt_memory_layout (alt_name : List Char) : List Segment :=
  parseLoop (alt_name.length + 1) alt_name []

/-- The parser loop is insensitive to the fuel bound once it exceeds the
cursor length: every iteration strictly shortens the cursor, so the structural
recursion computes exactly the source's `while` loop. -/
theorem parseLoop_fuel_irrelevant :
    ∀ (fuel fuel' : Nat) (cs : List Char) (acc : List Segment),
      cs.length < fuel → cs.length < fuel' →
      parseLoop fuel cs acc = parseLoop fuel' cs acc := by
  intro fuel
  induction fuel with
  | zero => intro fuel' cs acc h _; omega
  | succ fuel ih =>
    intro fuel' cs acc h h'
    cases fuel' with
    | zero => omega
    | succ fuel' =>
      simp only [parseLoop]
      split
      · rfl
      · rename_i c1 hA
        have hc1 := afterSlash_length hA
        have l1 := strtoul16_length c1
        split
        · split
          · rename_i c2 heq16
            rw [heq16] at l1
            simp only [List.length_cons] at l1
            have l2 := strtoul10_length c2
            split
            · rename_i c3 heq10
              rw [heq10] at l2
              simp only [List.length_cons] at l2
              have l3 := parse_size_bytes_length c3
              exact ih fuel' _ _ (by omega) (by omega)
            · exact ih fuel' _ _ (by omega) (by omega)
          · exact ih fuel' _ _ (by omega) (by omega)
        · exact ih fuel' c1 acc (by omega) (by omega)

/-- Embedding of the boolean result of `parse_alt_memory_layout`
(`layout->count > 0`), which becomes `device.layout_valid`. -/
def layoutValid (alt_name : List Char) : Bool :=
  !(parse_alt_memory_layout alt_name).isEmpty

/-- Embedding of `find_segment`: the first stored segment whose half-open
range `[start, end_)` contains the address, or `none`. -/
def find_segment (layout : List Segment) (address : Nat) : Option Segment :=
  layout.find? fun s => s.start ≤ address && address < s.end_

/-- Outcome of one GETSTATUS control transfer, as seen by `dfu_wait_ready`:
the device vanished (`LIBUSB_ERROR_NO_DEVICE`), some other transport error,
or a 6-byte reply carrying the status byte, state byte and poll timeout. -/
inductive GetStatusResult where
  | noDevice
  | transportErr
  | reply (status state timeout : Nat)
deriving DecidableEq, Repr

/-- Observable actions of `dfu_wait_ready`: a CLRSTATUS request, a sleep of
the computed number of milliseconds, or one of its `set_status` messages (the
device-fault message carries the raw status and state bytes the source
formats into it). -/
inductive WEv where
  | clrStatus
  | sleep (ms : Nat)
  | msgTransport
  | msgStatusFault (status state : Nat)
  | msgErrorState
deriving DecidableEq, Repr

/-- Embedding of `dfu_wait_ready`, driven by the list of successive GETSTATUS
outcomes the device produces.  `none` models a loop that is still polling when
the response list runs out (the source loop has no iteration cap).  DFU state
numbers follow the source defines: 2 = dfuIDLE, 5 = dfuDNLOAD_IDLE,
6/7/8 = the manifest phase, 10 = dfuERROR. -/
def dfu_wait_ready (allow_manifest : Bool) : List GetStatusResult → Option (Bool × List WEv)
  | [] => none
  | .noDevice :: _ => some (allow_manifest, [])
  | .transportErr :: _ => some (false, [.msgTransport])
  | .reply status state timeout :: rest =>
    if status ≠ 0 then some (false, [.clrStatus, .msgStatusFault status state])
    else if state = 2 ∨ state = 5 then some (true, [])
    else if state = 6 ∨ state = 7 ∨ state = 8 then some (allow_manifest, [])
    else if state = 10 then some (false, [.clrStatus, .msgErrorState])
    else
      (dfu_wait_ready allow_manifest rest).map
        (fun r => (r.1, WEv.sleep (if 0 < timeout then timeout else 5) :: r.2))

/-- Inner descriptor scan of `parse_transfer_size` (layout-aware variant):
walk the class-specific extra descriptor bytes while at least 9 bytes remain;
a descriptor of type 0x21 and length at least 9 yields the little-endian
16-bit field at offsets 5 and 6, with a zero value replaced by the default
1024 (`STM32_DEFAULT_TRANSFER`); a malformed length stops the scan.  Bytes
are read modulo 256, reflecting the `unsigned char` array of the source. -/
def descLoop (extra : List Nat) : Nat :=
  if 9 ≤ extra.length then
    let len := extra.headD 0 % 256
    let ty := extra.getD 1 0 % 256
    if len < 3 ∨ extra.length < len then 1024
    else if ty = 33 ∧ 9 ≤ len then
      let t := extra.getD 5 0 % 256 + (extra.getD 6 0 % 256) * 256
      if t = 0 then 1024 else t
    else descLoop (extra.drop len)
  else 1024
termination_by extra.length
decreasing_by
  simp only [List.length_drop]
  omega

/-- Embedding of `parse_transfer_size`: the negotiated wire transfer size from
the alt-setting's extra descriptor bytes, `STM32_DEFAULT_TRANSFER = 1024` when
the descriptor is absent, too short, or reports zero. -/
def parse_transfer_size (extra : List Nat) : Nat :=
  if extra.length < 9 then 1024 else descLoop extra

/-- Base load address `STM32_BASE_ADDRESS = 0x08000000`. -/
def STM32_BASE_ADDRESS : Nat := 0x08000000

/-- Kind of one `dfu_download_block` call issued by the flash run.  Vendor
commands (`dfu_send_special_command`) are sent as block 0: set-address-pointer
is command 0x21 with a 5-byte payload, mass erase command 0x41 with a 1-byte
payload, page erase command 0x41 with a 5-byte payload carrying the page
address.  Data chunks and the zero-length finalize block are sent at the
constant `data_block_number`. -/
inductive DnlKind where
  | setAddr (addr : Nat)
  | massErase
  | erasePage (addr : Nat)
  | data (addr dataLen wireLen : Nat)
  | finalize
deriving DecidableEq, Repr

/-- Observable events of a flash run: a progress report, a `dfu_prepare_idle`
round, or a DNLOAD request with its 16-bit block number. -/
inductive Ev where
  | prog (p : Nat)
  | prepare
  | dnl (blockNum : Nat) (k : DnlKind)
deriving DecidableEq, Repr

/-- Status messages of the layout-aware loader, by call site; the hex values
and error-name details the source interpolates into the format strings are
elided, the literal prefix kept.  `load_firmware_file` and the wait-ready
failure each use one representative of their message family. -/
def msgLoading : List Char := "Loading firmware file...".toList

def msgLoadFail : List Char := "Error: unable to open firmware file".toList

def msgUsbInit : List Char := "Initialising USB...".toList

def msgUsbFail : List Char := "Error: libusb init failed".toList

def msgWaitDev : List Char := "Waiting for DFU device...".toList

def msgDevNotFound : List Char := "Error: DFU device not found".toList

def msgUsingIface : List Char := "Using DFU interface".toList

def msgPreparing : List Char := "Preparing DFU state...".toList

def msgPrepareFail : List Char := "Error: failed to read DFU status".toList

def msgMassErase : List Char := "Performing mass erase...".toList

def msgSetAddr : List Char := "Setting write address".toList

def msgWriting : List Char := "Writing firmware...".toList

def msgMalloc : List Char := "Error: insufficient memory for transfer buffer".toList

def msgAddrOut : List Char := "Error: address outside DFU segment".toList

def msgSendFail : List Char := "Error: failed to send DFU data".toList

def msgWriteFail : List Char := "Error: write failed".toList

def msgDone : List Char := "Firmware written, device restarting".toList

def msgUnknownFail : List Char := "Unknown DFU failure".toList

/-- Embedding of `set_status` into a caller buffer of capacity `slen`:
`_vsnprintf_s(..., _TRUNCATE, ...)` stores at most `slen - 1` characters, and
a NULL or zero-length buffer is left untouched (the status-callback side
channel of the client context is not modelled). -/
def set_status (slen : Nat) (buf msg : List Char) : List Char :=
  if slen = 0 then buf else msg.take (slen - 1)

/-- Mutable state threaded through the erase planner: `last_erased_page`
(sentinel `0xFFFFFFFF` meaning none), the index of the next device-command
oracle slot, the DNLOAD events issued so far by the current call, and the
status buffer. -/
structure EraseAcc where
  last : Nat
  idx : Nat
  evs : List Ev
  buf : List Char
deriving DecidableEq, Repr

/-- Result of the erase planner: `ok` continues the run, `failed` aborts it
(`goto cleanup` at the caller). -/
inductive EraseOut where
  | ok (a : EraseAcc)
  | failed (a : EraseAcc)
deriving DecidableEq, Repr

/-- Inner page walk of `dfu_erase_range`:
`while (page_base < segment->end && page_base < end)`, issuing an erase-page
command only when `page_base` differs from `last_erased_page` and recording it
as the new `last_erased_page` on success.  A zero page size makes the source
loop forever (after at most one issued command); this is modelled as `none`. -/
def erasePagesLoop (cmd : Nat → Bool) (slen : Nat) (seg : Segment) (endA : Nat) :
    Nat → Nat → EraseAcc → Option EraseOut
  | 0, _, _ => none
  | fuel + 1, pb, a =>
    if pb < seg.end_ ∧ pb < endA then
      if seg.page_size = 0 then none
      else if a.last ≠ pb then
        if cmd a.idx then
          erasePagesLoop cmd slen seg endA fuel (pb + seg.page_size)
            ⟨pb, a.idx + 1, a.evs ++ [.dnl 0 (.erasePage pb)], a.buf⟩
        else
          some (.failed ⟨a.last, a.idx + 1, a.evs ++ [.dnl 0 (.erasePage pb)],
                         set_status slen a.buf msgSendFail⟩)
      else erasePagesLoop cmd slen seg endA fuel (pb + seg.page_size) a
    else some (.ok a)

/-- Outer range walk of `dfu_erase_range`: resolve the segment containing the
cursor (failing with the address-out-of-range message if none), erase its
pages, and jump the cursor to the segment's end.  The page-alignment division
with a zero page size is undefined in the source and modelled as `none`. -/
def eraseRangeLoop (cmd : Nat → Bool) (slen : Nat) (layout : List Segment)
    (endA : Nat) : Nat → Nat → EraseAcc → Option EraseOut
  | 0, _, _ => none
  | fuel + 1, start, a =>
    if start < endA then
      match find_segment layout start with
      | none => some (.failed ⟨a.last, a.idx, a.evs, set_status slen a.buf msgAddrOut⟩)
      | some seg =>
        if seg.page_size = 0 then none
        else
          let pb := seg.start + ((start - seg.start) / seg.page_size) * seg.page_size
          match erasePagesLoop cmd slen seg endA (endA - pb + 1) pb a with
          | none => none
          | some (.failed a') => some (.failed a')
          | some (.ok a') => eraseRangeLoop cmd slen layout endA fuel seg.end_ a'
    else some (.ok a)

/-- Embedding of `dfu_erase_range`: a no-op when the layout is unknown or
empty (mass erase already handled by the caller), otherwise the page walk over
`[address, address + length)`.  The fuel bounds passed to the two loops
strictly dominate their iteration counts (the outer cursor strictly grows per
iteration, the inner one by the positive page size), so fuel exhaustion never
decides a result; `none` arises exactly from the source's divergent or
undefined zero-page-size paths. -/
def dfu_erase_range (layout_valid : Bool) (layout : List Segment) (cmd : Nat → Bool)
    (slen : Nat) (address length : Nat) (a : EraseAcc) : Option EraseOut :=
  if layout_valid = false ∨ layout = [] then some (.ok a)
  else eraseRangeLoop cmd slen layout (address + length) (length + 1) address a

/-- Device session data relevant to the flash run, as discovered by
`wait_for_stm32_dfu_device`: the negotiated transfer size and the raw
alt-setting name string from which the memory layout is parsed. -/
structure Device where
  transfer_size : Nat
  alt_name : List Char
deriving DecidableEq, Repr

/-- Observable outcome of one flash run: the boolean return value of
`dfu_loader_flash`, its ordered event trace, and the final status buffer. -/
structure RunOut where
  success : Bool
  evs : List Ev
  buf : List Char
deriving DecidableEq, Repr

/-- Cleanup epilogue of `dfu_loader_flash`: 100% is reported only on success,
and the generic fallback message is stored when a failed run left the caller's
(non-NULL, nonzero-length) buffer empty. -/
def cleanupRun (slen : Nat) (success : Bool) (evs : List Ev) (buf : List Char) : RunOut :=
  ⟨success,
   if success then evs ++ [.prog 100] else evs,
   if success = false ∧ 0 < slen ∧ buf = [] then set_status slen buf msgUnknownFail
   else buf⟩

/-- Write-loop cursor state: bytes written so far, `last_erased_page`, the
next command-oracle index, and the status buffer. -/
structure LoopSt where
  written : Nat
  last : Nat
  idx : Nat
  buf : List Char
deriving DecidableEq, Repr

/-- Progress percentage reported after a chunk:
`percent = (valid ? 6 : 5) + written*90/L; if (percent > 95) percent = 95;`. -/
def reportPct (valid : Bool) (L w : Nat) : Nat :=
  let pct0 := (if valid then 6 else 5) + w * 90 / L
  if 95 < pct0 then 95 else pct0

/-- Result of one write-loop iteration body (`writeStep`): the chunk was
written, the iteration failed (`goto cleanup`), or the source would not have
returned (erase-planner divergence). -/
inductive StepOut where
  | stepOk (st : LoopSt) (evs : List Ev)
  | stepFail (st : LoopSt) (evs : List Ev)
  | stepHang
deriving DecidableEq, Repr

/-- One iteration body of the write loop of `dfu_loader_flash` (entered with
`written < L`): chunk size `min(remaining, transfer_size)`, clamped to the
containing segment when the layout is valid (failing with the
address-out-of-range message when no segment contains the chunk address);
lazy page erase when no mass erase was performed; set-address-pointer, then
the data block at the constant block number 2, with the payload padded to an
even length (`0xFF` pad byte) and the wire length cast to `uint16_t`; the
cursor advances by the unpadded length and progress is reported as
`(valid ? 6 : 5) + written*90/L` capped at 95. -/
def writeStep (cmd : Nat → Bool) (slen : Nat) (L T : Nat) (layout : List Segment)
    (valid massErased : Bool) (st : LoopSt) : StepOut :=
  let remaining := L - st.written
  let chunk0 := min remaining T
  let addr := STM32_BASE_ADDRESS + st.written
  let segRes : Option (Option Segment × Nat) :=
    if valid then
      match find_segment layout addr with
      | none => none
      | some seg => some (some seg, min chunk0 (seg.end_ - addr))
    else some (none, chunk0)
  match segRes with
  | none => .stepFail ⟨st.written, st.last, st.idx, set_status slen st.buf msgAddrOut⟩ []
  | some (segO, chunk) =>
    let eraseRes : Option (LoopSt × List Ev × Bool) :=
      if massErased = false ∧ segO.isSome then
        match dfu_erase_range valid layout cmd slen addr chunk ⟨st.last, st.idx, [], st.buf⟩ with
        | none => none
        | some (.failed a) => some (⟨st.written, a.last, a.idx, a.buf⟩, a.evs, false)
        | some (.ok a) => some (⟨st.written, a.last, a.idx, a.buf⟩, a.evs, true)
      else some (st, [], true)
    match eraseRes with
    | none => .stepHang
    | some (st1, evs1, cont) =>
      if cont = false then .stepFail st1 evs1
      else
        let evs2 := evs1 ++ [.dnl 0 (.setAddr addr)]
        if cmd st1.idx = false then
          .stepFail ⟨st1.written, st1.last, st1.idx + 1, set_status slen st1.buf msgSendFail⟩ evs2
        else
          let aligned := if chunk % 2 = 1 then chunk + 1 else chunk
          let evs3 := evs2 ++ [.dnl 2 (.data addr chunk (aligned % 65536))]
          if cmd (st1.idx + 1) = false then
            .stepFail ⟨st1.written, st1.last, st1.idx + 2, set_status slen st1.buf msgWriteFail⟩ evs3
          else
            let written' := st1.written + chunk
            .stepOk ⟨written', st1.last, st1.idx + 2, st1.buf⟩
              (evs3 ++ [.prog (reportPct valid L written')])

/-- Write loop `while (written < firmware_len)` of `dfu_loader_flash`,
with explicit fuel; `none` models a loop that never exits (possible in the
source only with a zero transfer size or a degenerate layout). -/
def writeLoop (cmd : Nat → Bool) (slen : Nat) (L T : Nat) (layout : List Segment)
    (valid massErased : Bool) : Nat → LoopSt → Option (Bool × LoopSt × List Ev)
  | 0, st => if st.written < L then none else some (true, st, [])
  | fuel + 1, st =>
    if st.written < L then
      match writeStep cmd slen L T layout valid massErased st with
      | .stepHang => none
      | .stepFail st' evs => some (false, st', evs)
      | .stepOk st' evs =>
        (writeLoop cmd slen L T layout valid massErased fuel st').map
          (fun r => (r.1, r.2.1, evs ++ r.2.2))
    else some (true, st, [])

/-- Continuation of `dfu_loader_flash` from the set-address step onward
(source lines from "Setting write address" to the success epilogue), shared by
the layout-valid and mass-erase paths. -/
def flashTail (cmd : Nat → Bool) (slen : Nat) (L T : Nat) (layout : List Segment)
    (valid massErased : Bool) (mallocOk : Bool)
    (evsB : List Ev) (bufB : List Char) (idxB : Nat) : Option RunOut :=
  let bufC := set_status slen bufB msgSetAddr
  let evsC := evsB ++ [.dnl 0 (.setAddr STM32_BASE_ADDRESS)]
  if cmd idxB = false then
    some (cleanupRun slen false evsC (set_status slen bufC msgSendFail))
  else
    let evsD := evsC ++ [.prog (if valid then 6 else 5)]
    let bufD := set_status slen bufC msgWriting
    if mallocOk = false then
      some (cleanupRun slen false evsD (set_status slen bufD msgMalloc))
    else
      match writeLoop cmd slen L T layout valid massErased L
          ⟨0, 0xFFFFFFFF, idxB + 1, bufD⟩ with
      | none => none
      | some (false, st', evsL) =>
        some (cleanupRun slen false (evsD ++ evsL) st'.buf)
      | some (true, st', evsL) =>
        let evsF := evsD ++ evsL ++ [.dnl 2 .finalize]
        if cmd st'.idx = false then
          some (cleanupRun slen false evsF (set_status slen st'.buf msgSendFail))
        else
          some (cleanupRun slen true (evsF ++ [.prog 99])
                (set_status slen st'.buf msgDone))

/-- Embedding of the layout-aware `dfu_loader_flash`.  External effects are
parameters: `load` is the outcome of `load_firmware_file` (the image length,
at least 1 on success since empty files are rejected), `usbOk` of
`libusb_init`, `dev` of the 10-second discovery loop, `mallocOk` of the chunk
buffer allocation, and `cmd n` decides the n-th fallible DFU command
(`dfu_prepare_idle` rounds and `dfu_download_block` exchanges, each modelled
as one slot; their internal GETSTATUS polling is modelled by
`dfu_wait_ready`).  The result is `none` when the source would never return,
otherwise the run's success flag, event trace and final status buffer. -/
def dfu_loader_flash (load : Option Nat) (usbOk : Bool) (dev : Option Device)
    (mallocOk : Bool) (cmd : Nat → Bool) (slen : Nat) (buf0 : List Char) : Option RunOut :=
  let evs0 : List Ev := [.prog 0]
  let buf1 := set_status slen buf0 msgLoading
  match load with
  | none => some (cleanupRun slen false evs0 (set_status slen buf1 msgLoadFail))
  | some L =>
    let buf2 := set_status slen buf1 msgUsbInit
    if usbOk = false then some (cleanupRun slen false evs0 (set_status slen buf2 msgUsbFail))
    else
      let buf3 := set_status slen buf2 msgWaitDev
      match dev with
      | none => some (cleanupRun slen false evs0 (set_status slen buf3 msgDevNotFound))
      | some d =>
        let buf4 := set_status slen buf3 msgUsingIface
        let layout := parse_alt_memory_layout d.alt_name
        let valid := !layout.isEmpty
        let buf5 := set_status slen buf4 msgPreparing
        if cmd 0 = false then
          some (cleanupRun slen false (evs0 ++ [.prepare]) (set_status slen buf5 msgPrepareFail))
        else
          let evs1 := evs0 ++ [.prepare]
          let branch : (List Ev × List Char) ⊕ (List Ev × List Char × Nat × Bool) :=
            if valid then .inr (evs1, buf5, 1, false)
            else
              let buf6 := set_status slen buf5 msgMassErase
              let evs2 := evs1 ++ [.prog 3, .dnl 0 .massErase]
              if cmd 1 = false then .inl (evs2, set_status slen buf6 msgSendFail)
              else if cmd 2 = false then
                .inl (evs2 ++ [.prepare], set_status slen buf6 msgPrepareFail)
              else .inr (evs2 ++ [.prepare], buf6, 3, true)
          match branch with
          | .inl (evsE, bufE) => some (cleanupRun slen false evsE bufE)
          | .inr (evsB, bufB, idxB, massErased) =>
            flashTail cmd slen L d.transfer_size layout valid massErased
              mallocOk evsB bufB idxB

/-- Write loop of the simpler loader variant (the first `dfu_loader_flash` in
the repository, without layout handling): data blocks start at block number 2
and the `uint16_t` counter increments per chunk, wrapping modulo 2^16; the
returned list pairs each chunk's block number with its length. -/
def writeLoopA (T : Nat) : Nat → Nat → Nat → Nat → List (Nat × Nat)
  | _, _, 0, _ => []
  | bn, written, fuel + 1, L =>
    if written < L then
      let chunk := min (L - written) T
      (bn, chunk) :: writeLoopA T ((bn + 1) % 65536) (written + chunk) fuel L
    else []

/-- Block numbers of the data chunks of one run of the simpler loader
variant, starting from `uint16_t block_number = 2`. -/
def blockNumbersA (L T : Nat) : List Nat :=
  (writeLoopA T 2 0 L L).map Prod.fst

/-- Percent values of a trace, in report order. -/
def progList (evs : List Ev) : List Nat :=
  evs.filterMap fun e => match e with | .prog p => some p | _ => none

/-- Unpadded payload lengths of the data DNLOAD blocks of a trace. -/
def dataLens (evs : List Ev) : List Nat :=
  evs.filterMap fun e => match e with | .dnl _ (.data _ d _) => some d | _ => none

/-- Data-phase DNLOAD blocks of a trace: `some d` for a data block carrying
`d` image bytes, `none` for the zero-length finalize block. -/
def dnlTrace (evs : List Ev) : List (Option Nat) :=
  evs.filterMap fun e => match e with
    | .dnl _ (.data _ d _) => some (some d)
    | .dnl _ .finalize => some none
    | _ => none

/-- Block numbers of the data DNLOAD blocks of a trace. -/
def dataBlockNums (evs : List Ev) : List Nat :=
  evs.filterMap fun e => match e with | .dnl b (.data _ _ _) => some b | _ => none

/-- Page addresses of the erase-page commands of a trace. -/
def erasedPages (evs : List Ev) : List Nat :=
  evs.filterMap fun e => match e with | .dnl _ (.erasePage p) => some p | _ => none

/-- Block-number discipline of the layout-aware loader: vendor commands are
sent as block 0, data blocks and the finalize block at the constant block
number 2. -/
def blockOk : Ev → Prop
  | .prog _ => True
  | .prepare => True
  | .dnl b (.setAddr _) => b = 0
  | .dnl b .massErase => b = 0
  | .dnl b (.erasePage _) => b = 0
  | .dnl b (.data _ _ _) => b = 2
  | .dnl b .finalize => b = 2

theorem parseLoop_page_pos :
    ∀ (fuel : Nat) (cs : List Char) (acc : List Segment),
      (∀ s ∈ acc, 0 < s.page_size) →
      ∀ s ∈ parseLoop fuel cs acc, 0 < s.page_size := by
  intro fuel
  induction fuel with
  | zero =>
    intro cs acc hacc
    simpa [parseLoop] using hacc
  | succ fuel ih =>
    intro cs acc hacc
    simp only [parseLoop]
    split
    · exact hacc
    · rename_i c1 hA
      split
      · split
        · split
          · rename_i c2 _ c3 _
            apply ih
            intro s hs
            split at hs
            · exact hacc s hs
            · rename_i hpg
              split at hs
              · rcases List.mem_append.mp hs with h' | h'
                · exact hacc s h'
                · simp at h'
                  subst h'
                  simpa using Nat.pos_of_ne_zero hpg
              · exact hacc s hs
          · exact ih _ _ hacc
        · exact ih _ _ hacc
      · exact ih _ _ hacc

/-- Every segment stored by the layout parser has a positive page size (the
`page_size == 0` guard skips the group otherwise). -/
theorem parse_alt_memory_layout_page_pos (alt_name : List Char) :
    ∀ s ∈ parse_alt_memory_layout alt_name, 0 < s.page_size :=
  parseLoop_page_pos (alt_name.length + 1) alt_name [] (by simp)

@[simp] theorem progList_append (a b : List Ev) :
    progList (a ++ b) = progList a ++ progList b :=
  List.filterMap_append a b _

@[simp] theorem dataLens_append (a b : List Ev) :
    dataLens (a ++ b) = dataLens a ++ dataLens b :=
  List.filterMap_append a b _

@[simp] theorem dnlTrace_append (a b : List Ev) :
    dnlTrace (a ++ b) = dnlTrace a ++ dnlTrace b :=
  List.filterMap_append a b _

@[simp] theorem dataBlockNums_append (a b : List Ev) :
    dataBlockNums (a ++ b) = dataBlockNums a ++ dataBlockNums b :=
  List.filterMap_append a b _

@[simp] theorem erasedPages_append (a b : List Ev) :
    erasedPages (a ++ b) = erasedPages a ++ erasedPages b :=
  List.filterMap_append a b _

@[simp] theorem progList_nil : progList [] = [] := rfl

@[simp] theorem progList_cons_prog (p : Nat) (t : List Ev) :
    progList (.prog p :: t) = p :: progList t := rfl

@[simp] theorem progList_cons_prepare (t : List Ev) :
    progList (.prepare :: t) = progList t := rfl

@[simp] theorem progList_cons_dnl (b : Nat) (k : DnlKind) (t : List Ev) :
    progList (.dnl b k :: t) = progList t := rfl

@[simp] theorem dataLens_nil : dataLens [] = [] := rfl

@[simp] theorem dataLens_cons_prog (p : Nat) (t : List Ev) :
    dataLens (.prog p :: t) = dataLens t := rfl

@[simp] theorem dataLens_cons_prepare (t : List Ev) :
    dataLens (.prepare :: t) = dataLens t := rfl

@[simp] theorem dataLens_cons_data (b a d w : Nat) (t : List Ev) :
    dataLens (.dnl b (.data a d w) :: t) = d :: dataLens t := rfl

@[simp] theorem dataLens_cons_setAddr (b a : Nat) (t : List Ev) :
    dataLens (.dnl b (.setAddr a) :: t) = dataLens t := rfl

@[simp] theorem dataLens_cons_massErase (b : Nat) (t : List Ev) :
    dataLens (.dnl b .massErase :: t) = dataLens t := rfl

@[simp] theorem dataLens_cons_erasePage (b p : Nat) (t : List Ev) :
    dataLens (.dnl b (.erasePage p) :: t) = dataLens t := rfl

@[simp] theorem dataLens_cons_finalize (b : Nat) (t : List Ev) :
    dataLens (.dnl b .finalize :: t) = dataLens t := rfl

@[simp] theorem dnlTrace_nil : dnlTrace [] = [] := rfl

@[simp] theorem dnlTrace_cons_prog (p : Nat) (t : List Ev) :
    dnlTrace (.prog p :: t) = dnlTrace t := rfl

@[simp] theorem dnlTrace_cons_prepare (t : List Ev) :
    dnlTrace (.prepare :: t) = dnlTrace t := rfl

@[simp] theorem dnlTrace_cons_data (b a d w : Nat) (t : List Ev) :
    dnlTrace (.dnl b (.data a d w) :: t) = some d :: dnlTrace t := rfl

@[simp] theorem dnlTrace_cons_finalize (b : Nat) (t : List Ev) :
    dnlTrace (.dnl b .finalize :: t) = none :: dnlTrace t := rfl

@[simp] theorem dnlTrace_cons_setAddr (b a : Nat) (t : List Ev) :
    dnlTrace (.dnl b (.setAddr a) :: t) = dnlTrace t := rfl

@[simp] theorem dnlTrace_cons_massErase (b : Nat) (t : List Ev) :
    dnlTrace (.dnl b .massErase :: t) = dnlTrace t := rfl

@[simp] theorem dnlTrace_cons_erasePage (b p : Nat) (t : List Ev) :
    dnlTrace (.dnl b (.erasePage p) :: t) = dnlTrace t := rfl

@[simp] theorem dataBlockNums_nil : dataBlockNums [] = [] := rfl

@[simp] theorem dataBlockNums_cons_prog (p : Nat) (t : List Ev) :
    dataBlockNums (.prog p :: t) = dataBlockNums t := rfl

@[simp] theorem dataBlockNums_cons_prepare (t : List Ev) :
    dataBlockNums (.prepare :: t) = dataBlockNums t := rfl

@[simp] theorem dataBlockNums_cons_data (b a d w : Nat) (t : List Ev) :
    dataBlockNums (.dnl b (.data a d w) :: t) = b :: dataBlockNums t := rfl

@[simp] theorem dataBlockNums_cons_setAddr (b a : Nat) (t : List Ev) :
    dataBlockNums (.dnl b (.setAddr a) :: t) = dataBlockNums t := rfl

@[simp] theorem dataBlockNums_cons_massErase (b : Nat) (t : List Ev) :
    dataBlockNums (.dnl b .massErase :: t) = dataBlockNums t := rfl

@[simp] theorem dataBlockNums_cons_erasePage (b p : Nat) (t : List Ev) :
    dataBlockNums (.dnl b (.erasePage p) :: t) = dataBlockNums t := rfl

@[simp] theorem dataBlockNums_cons_finalize (b : Nat) (t : List Ev) :
    dataBlockNums (.dnl b .finalize :: t) = dataBlockNums t := rfl

theorem set_status_ne_nil {slen : Nat} {buf msg : List Char}
    (hs : 2 ≤ slen) (hm : msg ≠ []) : set_status slen buf msg ≠ [] := by
  unfold set_status
  rw [if_neg (by omega)]
  cases msg with
  | nil => exact absurd rfl hm
  | cons c t =>
    cases hn : slen - 1 with
    | zero => omega
    | succ k => simp

theorem getLastD_append (x : Nat) (ps qs : List Nat) :
    (ps ++ qs).getLastD x = qs.getLastD (ps.getLastD x) := by
  induction ps generalizing x with
  | nil => simp
  | cons p rest ih =>
    simp only [List.cons_append, List.getLastD_cons]
    exact ih p

theorem chain_ne_extend {x : Nat} {xs ys : List Nat}
    (h1 : List.Chain' (· ≠ ·) (x :: xs))
    (h2 : List.Chain' (· ≠ ·) (xs.getLastD x :: ys)) :
    List.Chain' (· ≠ ·) (x :: (xs ++ ys)) := by
  induction xs generalizing x with
  | nil => simpa using h2
  | cons z zs ih =>
    rw [List.chain'_cons] at h1
    rw [List.getLastD_cons] at h2
    exact List.chain'_cons.mpr ⟨h1.1, ih h1.2 h2⟩

theorem chain_le_append_last {xs : List Nat} {z : Nat}
    (hc : List.Chain' (· ≤ ·) xs)
    (hb : ∀ p ∈ xs, p ≤ z) : List.Chain' (· ≤ ·) (xs ++ [z]) := by
  apply List.Chain'.append hc (List.chain'_singleton z)
  intro a ha b hb'
  simp at hb'
  subst hb'
  exact hb a (List.mem_of_mem_getLast? ha)

/-- Abbreviation for the erase-page event of a page address. -/
def eraseEv (p : Nat) : Ev := .dnl 0 (.erasePage p)

/-- Accumulator carried by either erase-planner outcome. -/
def accOf : EraseOut → EraseAcc
  | .ok a => a
  | .failed a => a

theorem erasePagesLoop_shape (cmd : Nat → Bool) (slen : Nat) (seg : Segment) (endA : Nat) :
    ∀ (fuel pb : Nat) (a : EraseAcc) (out : EraseOut),
      erasePagesLoop cmd slen seg endA fuel pb a = some out →
      ∃ ps : List Nat,
        (accOf out).evs = a.evs ++ ps.map eraseEv ∧
        List.Chain' (· ≠ ·) (a.last :: ps) ∧
        (∀ a', out = .ok a' → a'.last = ps.getLastD a.last) ∧
        (∀ a', out = .ok a' → a'.buf = a.buf) ∧
        (∀ a', out = .failed a' → a'.buf = set_status slen a.buf msgSendFail) := by
  intro fuel
  induction fuel with
  | zero =>
    intro pb a out h
    simp [erasePagesLoop] at h
  | succ fuel ih =>
    intro pb a out h
    simp only [erasePagesLoop] at h
    split at h
    · split at h
      · exact absurd h (by simp)
      · split at h
        · rename_i hcond hpz hlast
          split at h
          · obtain ⟨ps, he, hc, hl, hbo, hbf⟩ := ih _ _ _ h
            refine ⟨pb :: ps, ?_, ?_, ?_, ?_, ?_⟩
            · simpa [eraseEv] using he
            · exact List.chain'_cons.mpr ⟨hlast, hc⟩
            · intro a' ha'
              rw [List.getLastD_cons]
              exact hl a' ha'
            · intro a' ha'
              exact hbo a' ha'
            · intro a' ha'
              exact hbf a' ha'
          · cases h
            refine ⟨[pb], by simp [accOf, eraseEv], ?_, ?_, ?_, ?_⟩
            · exact List.chain'_pair.mpr hlast
            · intro a' ha'; cases ha'
            · intro a' ha'; cases ha'
            · intro a' ha'
              cases ha'
              rfl
        · obtain ⟨ps, he, hc, hl, hbo, hbf⟩ := ih _ _ _ h
          exact ⟨ps, he, hc, hl, hbo, hbf⟩
    · cases h
      refine ⟨[], by simp [accOf], by simp, ?_, ?_, ?_⟩
      · intro a' ha'
        cases ha'
        rfl
      · intro a' ha'
        cases ha'
        rfl
      · intro a' ha'; cases ha'

theorem eraseRangeLoop_shape (cmd : Nat → Bool) (slen : Nat) (layout : List Segment)
    (endA : Nat) :
    ∀ (fuel start : Nat) (a : EraseAcc) (out : EraseOut),
      eraseRangeLoop cmd slen layout endA fuel start a = some out →
      ∃ ps : List Nat,
        (accOf out).evs = a.evs ++ ps.map eraseEv ∧
        List.Chain' (· ≠ ·) (a.last :: ps) ∧
        (∀ a', out = .ok a' → a'.last = ps.getLastD a.last) ∧
        (∀ a', out = .ok a' → a'.buf = a.buf) ∧
        (2 ≤ slen → a.buf ≠ [] → (accOf out).buf ≠ []) := by
  intro fuel
  induction fuel with
  | zero =>
    intro start a out h
    simp [eraseRangeLoop] at h
  | succ fuel ih =>
    intro start a out h
    simp only [eraseRangeLoop] at h
    split at h
    · split at h
      · cases h
        refine ⟨[], by simp [accOf], by simp, ?_, ?_, ?_⟩
        · intro a' ha'; cases ha'
        · intro a' ha'; cases ha'
        · intro hs _
          exact set_status_ne_nil hs (by decide)
      · rename_i seg hseg
        split at h
        · exact absurd h (by simp)
        · split at h
          · exact absurd h (by simp)
          · rename_i a1 hpages
            cases h
            obtain ⟨ps, he, hc, hl, hbo, hbf⟩ := erasePagesLoop_shape cmd slen seg endA _ _ _ _ hpages
            simp only [accOf] at he ⊢
            refine ⟨ps, he, hc, ?_, ?_, ?_⟩
            · intro a' ha'; cases ha'
            · intro a' ha'; cases ha'
            · intro hs hb
              rw [hbf a1 rfl]
              exact set_status_ne_nil hs (by decide)
          · rename_i a1 hpages
            obtain ⟨ps1, he1, hc1, hl1, hbo1, hbf1⟩ :=
              erasePagesLoop_shape cmd slen seg endA _ _ _ _ hpages
            simp only [accOf] at he1
            obtain ⟨ps2, he2, hc2, hl2, hb2, hnn2⟩ := ih _ _ _ h
            refine ⟨ps1 ++ ps2, ?_, ?_, ?_, ?_, ?_⟩
            · rw [he2, he1]
              simp
            · apply chain_ne_extend hc1
              rw [← hl1 a1 rfl]
              exact hc2
            · intro a' ha'
              rw [getLastD_append, ← hl1 a1 rfl]
              exact hl2 a' ha'
            · intro a' ha'
              rw [hb2 a' ha']
              exact hbo1 a1 rfl
            · intro hs hb
              apply hnn2 hs
              rw [hbo1 a1 rfl]
              exact hb
    · cases h
      refine ⟨[], by simp [accOf], by simp, ?_, ?_, ?_⟩
      · intro a' ha'
        cases ha'
        rfl
      · intro a' ha'
        cases ha'
        rfl
      · intro _ hb
        exact hb

theorem erasePagesLoop_total (cmd : Nat → Bool) (slen : Nat) (seg : Segment) (endA : Nat) :
    ∀ (fuel pb : Nat) (a : EraseAcc), 0 < seg.page_size → endA - pb < fuel →
      erasePagesLoop cmd slen seg endA fuel pb a ≠ none := by
  intro fuel
  induction fuel with
  | zero => intro pb a hp hf; omega
  | succ fuel ih =>
    intro pb a hp hf
    simp only [erasePagesLoop]
    split
    · rename_i hcond
      rw [if_neg (by omega)]
      split
      · split
        · exact ih _ _ hp (by omega)
        · simp
      · exact ih _ _ hp (by omega)
    · simp

theorem eraseRangeLoop_total (cmd : Nat → Bool) (slen : Nat) (layout : List Segment)
    (endA : Nat) :
    ∀ (fuel start : Nat) (a : EraseAcc), (∀ s ∈ layout, 0 < s.page_size) →
      endA - start < fuel →
      eraseRangeLoop cmd slen layout endA fuel start a ≠ none := by
  intro fuel
  induction fuel with
  | zero => intro start a hp hf; omega
  | succ fuel ih =>
    intro start a hp hf
    simp only [eraseRangeLoop]
    split
    · rename_i hlt
      split
      · simp
      · rename_i seg hseg
        have hmem : seg ∈ layout := List.mem_of_find?_eq_some hseg
        have hpos := hp seg hmem
        have hcontain := List.find?_some hseg
        simp only [Bool.and_eq_true, decide_eq_true_eq] at hcontain
        rw [if_neg (by omega)]
        cases hpg : erasePagesLoop cmd slen seg endA
            (endA - (seg.start + (start - seg.start) / seg.page_size * seg.page_size) + 1)
            (seg.start + (start - seg.start) / seg.page_size * seg.page_size) a with
        | none =>
          exact absurd hpg (erasePagesLoop_total cmd slen seg endA _ _ _ hpos (by omega))
        | some out =>
          cases out with
          | failed a1 => simp
          | ok a1 =>
            show eraseRangeLoop cmd slen layout endA fuel seg.end_ a1 ≠ none
            exact ih _ _ hp (by omega)
    · simp

theorem dfu_erase_range_total (valid : Bool) (layout : List Segment) (cmd : Nat → Bool)
    (slen : Nat) (address length : Nat) (a : EraseAcc)
    (hp : ∀ s ∈ layout, 0 < s.page_size) :
    dfu_erase_range valid layout cmd slen address length a ≠ none := by
  unfold dfu_erase_range
  split
  · simp
  · exact eraseRangeLoop_total cmd slen layout (address + length) _ _ _ hp (by omega)

theorem reportPct_eq_min (valid : Bool) (L w : Nat) :
    reportPct valid L w = min ((if valid then 6 else 5) + w * 90 / L) 95 := by
  unfold reportPct
  simp only []
  by_cases h : 95 < (if valid then 6 else 5) + w * 90 / L
  · rw [if_pos h]
    omega
  · rw [if_neg h]
    omega

theorem reportPct_mono (valid : Bool) (L : Nat) {w w' : Nat} (h : w ≤ w') :
    reportPct valid L w ≤ reportPct valid L w' := by
  rw [reportPct_eq_min, reportPct_eq_min]
  have hd : w * 90 / L ≤ w' * 90 / L := Nat.div_le_div_right (Nat.mul_le_mul_right 90 h)
  generalize (if valid = true then 6 else 5) = b
  generalize w * 90 / L = x at hd ⊢
  generalize w' * 90 / L = y at hd ⊢
  omega

theorem reportPct_le_95 (valid : Bool) (L w : Nat) : reportPct valid L w ≤ 95 := by
  rw [reportPct_eq_min]
  generalize (if valid = true then 6 else 5) + w * 90 / L = x
  omega

theorem base_le_reportPct (valid : Bool) (L w : Nat) :
    (if valid then 6 else 5) ≤ reportPct valid L w := by
  rw [reportPct_eq_min]
  have hb : (if valid = true then 6 else 5) ≤ 6 := by cases valid <;> simp
  generalize (if valid = true then 6 else 5) = b at hb ⊢
  generalize w * 90 / L = x
  omega

theorem reportPct_zero (valid : Bool) (L : Nat) :
    reportPct valid L 0 = if valid then 6 else 5 := by
  cases valid <;> simp [reportPct_eq_min]

@[simp] theorem progList_erase_map (ps : List Nat) :
    progList (ps.map eraseEv) = [] := by
  induction ps with
  | nil => rfl
  | cons p t ih => simpa [progList, eraseEv] using ih

@[simp] theorem dataLens_erase_map (ps : List Nat) :
    dataLens (ps.map eraseEv) = [] := by
  induction ps with
  | nil => rfl
  | cons p t ih => simpa [dataLens, eraseEv] using ih

@[simp] theorem dnlTrace_erase_map (ps : List Nat) :
    dnlTrace (ps.map eraseEv) = [] := by
  induction ps with
  | nil => rfl
  | cons p t ih => simpa [dnlTrace, eraseEv] using ih

@[simp] theorem dataBlockNums_erase_map (ps : List Nat) :
    dataBlockNums (ps.map eraseEv) = [] := by
  induction ps with
  | nil => rfl
  | cons p t ih => simpa [dataBlockNums, eraseEv] using ih

theorem blockOk_erase_map (ps : List Nat) :
    ∀ e ∈ ps.map eraseEv, blockOk e := by
  intro e he
  obtain ⟨p, _, rfl⟩ := List.mem_map.mp he
  trivial

theorem dfu_erase_range_shape (valid : Bool) (layout : List Segment) (cmd : Nat → Bool)
    (slen : Nat) (address length : Nat) (a : EraseAcc) (out : EraseOut)
    (h : dfu_erase_range valid layout cmd slen address length a = some out) :
    ∃ ps : List Nat,
      (accOf out).evs = a.evs ++ ps.map eraseEv ∧
      List.Chain' (· ≠ ·) (a.last :: ps) ∧
      (∀ a', out = .ok a' → a'.last = ps.getLastD a.last) ∧
      (∀ a', out = .ok a' → a'.buf = a.buf) ∧
      (2 ≤ slen → a.buf ≠ [] → (accOf out).buf ≠ []) := by
  unfold dfu_erase_range at h
  split at h
  · cases h
    refine ⟨[], by simp [accOf], by simp, ?_, ?_, ?_⟩
    · intro a' ha'
      cases ha'
      rfl
    · intro a' ha'
      cases ha'
      rfl
    · intro _ hb
      exact hb
  · exact eraseRangeLoop_shape cmd slen layout (address + length) _ _ _ _ h

theorem writeStep_no_hang (cmd : Nat → Bool) (slen : Nat) (L T : Nat)
    (layout : List Segment) (valid massErased : Bool) (st : LoopSt)
    (hp : ∀ s ∈ layout, 0 < s.page_size) :
    writeStep cmd slen L T layout valid massErased st ≠ .stepHang := by
  unfold writeStep
  simp only []
  split
  · simp
  · rename_i pr segO chunk heq
    split
    · rename_i hcase
      exfalso
      split at hcase
      · split at hcase
        · rename_i he
          exact absurd he (dfu_erase_range_total _ _ _ _ _ _ _ hp)
        · exact absurd hcase (by simp)
        · exact absurd hcase (by simp)
      · exact absurd hcase (by simp)
    · split
      · simp
      · split
        · simp
        · split <;> simp

theorem writeStep_fail_shape (cmd : Nat → Bool) (slen : Nat) (L T : Nat)
    (layout : List Segment) (valid massErased : Bool) (st st' : LoopSt) (evs : List Ev)
    (h : writeStep cmd slen L T layout valid massErased st = .stepFail st' evs) :
    progList evs = [] ∧ (∀ e ∈ evs, blockOk e) ∧ (dataLens evs).length ≤ 1 ∧
    st'.written = st.written ∧
    (2 ≤ slen → st.buf ≠ [] → st'.buf ≠ []) := by
  unfold writeStep at h
  simp only [] at h
  split at h
  · cases h
    refine ⟨rfl, by simp, by simp, rfl, ?_⟩
    intro hs _
    exact set_status_ne_nil hs (by decide)
  · rename_i pr segO chunk heq
    split at h
    · cases h
    · rename_i pr2 st1 evs1 cont hcase
      have hstep1 : evs1 = evs1 ∧ st1.written = st.written ∧
          progList evs1 = [] ∧ (∀ e ∈ evs1, blockOk e) ∧ dataLens evs1 = [] ∧
          (2 ≤ slen → st.buf ≠ [] → st1.buf ≠ []) ∧
          (cont = true → st1.buf = st.buf) := by
        clear h
        split at hcase
        · split at hcase
          · cases hcase
          · rename_i a he
            cases hcase
            obtain ⟨ps, hevs, _, _, _, hbuf⟩ := dfu_erase_range_shape _ _ _ _ _ _ _ _ he
            simp only [accOf] at hevs hbuf
            refine ⟨rfl, rfl, ?_, ?_, ?_, ?_, ?_⟩
            · simp [hevs]
            · rw [hevs]
              simpa using blockOk_erase_map ps
            · simp [hevs]
            · intro hs hb
              exact hbuf hs hb
            · intro hcontra
              cases hcontra
          · rename_i a he
            cases hcase
            obtain ⟨ps, hevs, _, hlast, hokbuf, hbuf⟩ := dfu_erase_range_shape _ _ _ _ _ _ _ _ he
            have hbo : a.buf = st.buf := hokbuf a rfl
            simp only [accOf] at hevs hbuf
            refine ⟨rfl, rfl, ?_, ?_, ?_, ?_, ?_⟩
            · simp [hevs]
            · rw [hevs]
              simpa using blockOk_erase_map ps
            · simp [hevs]
            · intro hs hb
              exact hbuf hs hb
            · intro _
              exact hbo
        · cases hcase
          exact ⟨rfl, rfl, rfl, by simp, rfl, fun _ hb => hb, fun _ => rfl⟩
      obtain ⟨-, hw1, hp1, hb1, hd1, hbuf1, hbok1⟩ := hstep1
      split at h
      · rename_i hcont
        cases h
        exact ⟨hp1, hb1, by simp [hd1], hw1, hbuf1⟩
      · rename_i hcont
        have hcont' : cont = true := by
          cases cont
          · exact absurd rfl hcont
          · rfl
        split at h
        · cases h
          refine ⟨by simp [hp1], ?_, by simp [hd1], hw1, ?_⟩
          · intro e he
            rcases List.mem_append.mp he with h' | h'
            · exact hb1 e h'
            · simp at h'
              subst h'
              trivial
          · intro hs hb
            exact set_status_ne_nil hs (by decide)
        · split at h
          · cases h
            refine ⟨by simp [hp1], ?_, by simp [hd1], hw1, ?_⟩
            · intro e he
              rcases List.mem_append.mp he with h' | h'
              · rcases List.mem_append.mp h' with h2 | h2
                · exact hb1 e h2
                · simp at h2
                  subst h2
                  trivial
              · simp at h'
                subst h'
                trivial
            · intro hs hb
              exact set_status_ne_nil hs (by decide)
          · cases h

theorem writeStep_ok_shape (cmd : Nat → Bool) (slen : Nat) (L T : Nat)
    (layout : List Segment) (valid massErased : Bool) (st st' : LoopSt) (evs : List Ev)
    (h : writeStep cmd slen L T layout valid massErased st = .stepOk st' evs) :
    ∃ chunk,
      progList evs = [reportPct valid L (st.written + chunk)] ∧
      (∀ e ∈ evs, blockOk e) ∧
      dataLens evs = [chunk] ∧
      dnlTrace evs = [some chunk] ∧
      st'.written = st.written + chunk ∧
      chunk ≤ L - st.written ∧
      (1 ≤ T → st.written < L → 1 ≤ chunk) ∧
      st'.buf = st.buf := by
  unfold writeStep at h
  simp only [] at h
  split at h
  · cases h
  · rename_i pr segO chunk heq
    have hchunk : chunk ≤ L - st.written ∧ (1 ≤ T → st.written < L → 1 ≤ chunk) := by
      clear h
      split at heq
      · split at heq
        · cases heq
        · rename_i seg hfind
          cases heq
          have hcont := List.find?_some hfind
          simp only [Bool.and_eq_true, decide_eq_true_eq] at hcont
          omega
      · cases heq
        omega
    split at h
    · cases h
    · rename_i pr2 st1 evs1 cont hcase
      have hstep1 : st1.written = st.written ∧
          progList evs1 = [] ∧ (∀ e ∈ evs1, blockOk e) ∧ dataLens evs1 = [] ∧
          dnlTrace evs1 = [] ∧
          (cont = true → st1.buf = st.buf) := by
        clear h
        split at hcase
        · split at hcase
          · cases hcase
          · rename_i a he
            cases hcase
            obtain ⟨ps, hevs, _, _, _, _⟩ := dfu_erase_range_shape _ _ _ _ _ _ _ _ he
            simp only [accOf] at hevs
            refine ⟨rfl, by simp [hevs], ?_, by simp [hevs], by simp [hevs], ?_⟩
            · rw [hevs]
              simpa using blockOk_erase_map ps
            · intro hcontra
              cases hcontra
          · rename_i a he
            cases hcase
            obtain ⟨ps, hevs, _, _, hokbuf, _⟩ := dfu_erase_range_shape _ _ _ _ _ _ _ _ he
            simp only [accOf] at hevs
            refine ⟨rfl, by simp [hevs], ?_, by simp [hevs], by simp [hevs], ?_⟩
            · rw [hevs]
              simpa using blockOk_erase_map ps
            · intro _
              exact hokbuf a rfl
        · cases hcase
          exact ⟨rfl, rfl, by simp, rfl, rfl, fun _ => rfl⟩
      obtain ⟨hw1, hp1, hb1, hd1, ht1, hbok1⟩ := hstep1
      split at h
      · cases h
      · rename_i hcont
        have hcont' : cont = true := by
          cases cont
          · exact absurd rfl hcont
          · rfl
        split at h
        · cases h
        · split at h
          · cases h
          · cases h
            refine ⟨chunk, ?_, ?_, ?_, ?_, ?_, hchunk.1, hchunk.2, ?_⟩
            · simp [hp1, hw1]
            · intro e he
              rcases List.mem_append.mp he with h' | h'
              · rcases List.mem_append.mp h' with h2 | h2
                · rcases List.mem_append.mp h2 with h3 | h3
                  · exact hb1 e h3
                  · simp at h3
                    subst h3
                    trivial
                · simp at h2
                  subst h2
                  trivial
              · simp at h'
                subst h'
                trivial
            · simp [hd1]
            · simp [ht1]
            · simp [hw1]
            · exact hbok1 hcont'


end AffineIO

namespace AffineIO

theorem writeLoop_prog (cmd : Nat → Bool) (slen : Nat) (L T : Nat)
    (layout : List Segment) (valid massErased : Bool) :
    ∀ (fuel : Nat) (st : LoopSt) (done : Bool) (st' : LoopSt) (evs : List Ev),
      writeLoop cmd slen L T layout valid massErased fuel st = some (done, st', evs) →
      List.Chain' (· ≤ ·) (reportPct valid L st.written :: progList evs) ∧
      (∀ p ∈ progList evs, p ≤ 95) := by
  intro fuel
  induction fuel with
  | zero =>
    intro st done st' evs h
    simp only [writeLoop] at h
    split at h
    · exact absurd h (by simp)
    · cases h
      exact ⟨by simp, by simp⟩
  | succ fuel ih =>
    intro st done st' evs h
    simp only [writeLoop] at h
    split at h
    · split at h
      · exact absurd h (by simp)
      · rename_i st2 evs2 hstep
        cases h
        obtain ⟨hp2, _, _, _, _⟩ := writeStep_fail_shape _ _ _ _ _ _ _ _ _ _ hstep
        rw [hp2]
        exact ⟨by simp, by simp⟩
      · rename_i st2 evs2 hstep
        cases hrec : writeLoop cmd slen L T layout valid massErased fuel st2 with
        | none =>
          rw [hrec] at h
          exact absurd h (by simp)
        | some r =>
          rw [hrec] at h
          obtain ⟨d3, st3, evs3⟩ := r
          cases h
          obtain ⟨chunk, hpl, _, _, _, hw, _, _, _⟩ :=
            writeStep_ok_shape _ _ _ _ _ _ _ _ _ _ hstep
          obtain ⟨hchain, hbound⟩ := ih st2 d3 st3 evs3 hrec
          rw [hw] at hchain
          constructor
          · simp only [progList_append, hpl]
            refine List.chain'_cons.mpr ⟨?_, hchain⟩
            exact reportPct_mono valid L (by omega)
          · intro p hp
            simp only [progList_append, hpl] at hp
            rcases List.mem_append.mp hp with h' | h'
            · simp at h'
              subst h'
              exact reportPct_le_95 valid L _
            · exact hbound p h'
    · cases h
      exact ⟨by simp, by simp⟩

theorem writeLoop_invariants (cmd : Nat → Bool) (slen : Nat) (L T : Nat)
    (layout : List Segment) (valid massErased : Bool) :
    ∀ (fuel : Nat) (st : LoopSt) (done : Bool) (st' : LoopSt) (evs : List Ev),
      writeLoop cmd slen L T layout valid massErased fuel st = some (done, st', evs) →
      (∀ e ∈ evs, blockOk e) ∧
      (dataLens evs).length ≤ fuel ∧
      (2 ≤ slen → st.buf ≠ [] → st'.buf ≠ []) ∧
      st.written ≤ st'.written := by
  intro fuel
  induction fuel with
  | zero =>
    intro st done st' evs h
    simp only [writeLoop] at h
    split at h
    · exact absurd h (by simp)
    · cases h
      exact ⟨by simp, by simp, fun _ hb => hb, le_refl _⟩
  | succ fuel ih =>
    intro st done st' evs h
    simp only [writeLoop] at h
    split at h
    · split at h
      · exact absurd h (by simp)
      · rename_i st2 evs2 hstep
        cases h
        obtain ⟨_, hbok, hdl, hw, hbuf⟩ := writeStep_fail_shape _ _ _ _ _ _ _ _ _ _ hstep
        exact ⟨hbok, by omega, hbuf, by omega⟩
      · rename_i st2 evs2 hstep
        cases hrec : writeLoop cmd slen L T layout valid massErased fuel st2 with
        | none =>
          rw [hrec] at h
          exact absurd h (by simp)
        | some r =>
          rw [hrec] at h
          obtain ⟨d3, st3, evs3⟩ := r
          cases h
          dsimp only
          obtain ⟨chunk, _, hbok2, hdl2, _, hw2, _, _, hbuf2⟩ :=
            writeStep_ok_shape _ _ _ _ _ _ _ _ _ _ hstep
          obtain ⟨hbok3, hdl3, hbuf3, hw3⟩ := ih st2 d3 st3 evs3 hrec
          refine ⟨?_, ?_, ?_, ?_⟩
          · intro e he
            rcases List.mem_append.mp he with h' | h'
            · exact hbok2 e h'
            · exact hbok3 e h'
          · simp only [dataLens_append, List.length_append, hdl2]
            simp
            omega
          · intro hs hb
            apply hbuf3 hs
            rw [hbuf2]
            exact hb
          · omega
    · cases h
      exact ⟨by simp, by simp, fun _ hb => hb, le_refl _⟩

theorem writeLoop_total (cmd : Nat → Bool) (slen : Nat) (L T : Nat)
    (layout : List Segment) (valid massErased : Bool)
    (hT : 1 ≤ T) (hp : ∀ s ∈ layout, 0 < s.page_size) :
    ∀ (fuel : Nat) (st : LoopSt), L - st.written ≤ fuel →
      writeLoop cmd slen L T layout valid massErased fuel st ≠ none := by
  intro fuel
  induction fuel with
  | zero =>
    intro st hf
    simp only [writeLoop]
    rw [if_neg (by omega)]
    simp
  | succ fuel ih =>
    intro st hf
    simp only [writeLoop]
    split
    · rename_i hlt
      cases hstep : writeStep cmd slen L T layout valid massErased st with
      | stepHang => exact absurd hstep (writeStep_no_hang _ _ _ _ _ _ _ _ hp)
      | stepFail st2 evs2 => simp
      | stepOk st2 evs2 =>
        obtain ⟨chunk, _, _, _, _, hw, _, hch, _⟩ :=
          writeStep_ok_shape _ _ _ _ _ _ _ _ _ _ hstep
        have h1 : 1 ≤ chunk := hch hT hlt
        simpa using ih st2 (by omega)
    · simp

theorem ceil_div_succ {rem T : Nat} (hT : 1 ≤ T) (hrem : 1 ≤ rem) :
    (rem - min rem T + T - 1) / T + 1 = (rem + T - 1) / T := by
  rcases le_or_lt rem T with hle | hlt
  · have h1 : rem - min rem T = 0 := by omega
    rw [h1]
    have h2 : (0 + T - 1) / T = 0 := Nat.div_eq_of_lt (by omega)
    rw [h2]
    have h4 : (rem + T - 1) / T = 1 :=
      Nat.div_eq_of_lt_le (by omega) (by omega)
    omega
  · have hmin : min rem T = T := by omega
    rw [hmin]
    have h3 : rem - T + T - 1 = rem - 1 := by omega
    have h4 : rem + T - 1 = rem - 1 + T := by omega
    rw [h3, h4, Nat.add_div_right _ (by omega)]

theorem writeStep_invalid_eval (cmd : Nat → Bool) (slen : Nat) (L T : Nat)
    (layout : List Segment) (massErased : Bool) (st : LoopSt)
    (hcmd : ∀ n, cmd n = true) :
    writeStep cmd slen L T layout false massErased st =
      .stepOk ⟨st.written + min (L - st.written) T, st.last, st.idx + 2, st.buf⟩
        [.dnl 0 (.setAddr (STM32_BASE_ADDRESS + st.written)),
         .dnl 2 (.data (STM32_BASE_ADDRESS + st.written) (min (L - st.written) T)
           ((if (min (L - st.written) T) % 2 = 1 then (min (L - st.written) T) + 1
             else (min (L - st.written) T)) % 65536)),
         .prog (reportPct false L (st.written + min (L - st.written) T))] := by
  simp [writeStep, hcmd]

theorem writeLoop_invalid (cmd : Nat → Bool) (slen : Nat) (L T : Nat)
    (layout : List Segment) (massErased : Bool)
    (hcmd : ∀ n, cmd n = true) (hT : 1 ≤ T) :
    ∀ (fuel : Nat) (st : LoopSt), L - st.written ≤ fuel →
      ∃ st' evs,
        writeLoop cmd slen L T layout false massErased fuel st = some (true, st', evs) ∧
        st'.buf = st.buf ∧
        dnlTrace evs = (dataLens evs).map some ∧
        (dataLens evs).length = (L - st.written + T - 1) / T ∧
        (dataLens evs).sum = L - st.written ∧
        (∀ i, i + 1 < (dataLens evs).length → (dataLens evs).getD i 0 = T) := by
  intro fuel
  induction fuel with
  | zero =>
    intro st hf
    refine ⟨st, [], ?_, rfl, rfl, ?_, ?_, ?_⟩
    · simp only [writeLoop]
      rw [if_neg (by omega)]
    · have hdiv : (T - 1) / T = 0 := Nat.div_eq_of_lt (by omega)
      have hz : L - st.written = 0 := by omega
      simp [hz, hdiv]
    · simp
      omega
    · intro i hi
      simp at hi
  | succ fuel ih =>
    intro st hf
    by_cases hlt : st.written < L
    · have hstep := writeStep_invalid_eval cmd slen L T layout massErased st hcmd
      set chunk := min (L - st.written) T with hchunkdef
      have hch1 : 1 ≤ chunk := by omega
      obtain ⟨st', evs3, hrec, hbuf3, htr3, hlen3, hsum3, hget3⟩ :=
        ih ⟨st.written + chunk, st.last, st.idx + 2, st.buf⟩ (by dsimp only; omega)
      dsimp only at hbuf3 hlen3 hsum3
      refine ⟨st',
        [Ev.dnl 0 (DnlKind.setAddr (STM32_BASE_ADDRESS + st.written)),
         Ev.dnl 2 (DnlKind.data (STM32_BASE_ADDRESS + st.written) chunk
           ((if chunk % 2 = 1 then chunk + 1 else chunk) % 65536)),
         Ev.prog (reportPct false L (st.written + chunk))] ++ evs3, ?_, ?_, ?_, ?_, ?_, ?_⟩
      · simp only [writeLoop]
        rw [if_pos hlt, hstep]
        dsimp only
        rw [hrec]
        rfl
      · simpa using hbuf3
      · simp only [dnlTrace_append, dataLens_append]
        simp only [dnlTrace_cons_setAddr, dnlTrace_cons_data, dnlTrace_cons_prog,
          dnlTrace_nil, dataLens_cons_setAddr, dataLens_cons_data, dataLens_cons_prog,
          dataLens_nil]
        simp only [List.map_append, List.map_cons, List.map_nil]
        rw [htr3]
      · simp only [dataLens_append, List.length_append]
        simp only [dataLens_cons_setAddr, dataLens_cons_data, dataLens_cons_prog,
          dataLens_nil]
        simp only [List.length_cons, List.length_nil]
        rw [hlen3]
        have heq2 : L - (st.written + chunk) = (L - st.written) - chunk := by omega
        rw [heq2, hchunkdef]
        have := @ceil_div_succ (L - st.written) T hT (by omega)
        omega
      · simp only [dataLens_append, List.sum_append]
        simp only [dataLens_cons_setAddr, dataLens_cons_data, dataLens_cons_prog,
          dataLens_nil]
        simp only [List.sum_cons, List.sum_nil]
        omega
      · intro i hi
        simp only [dataLens_append, dataLens_cons_setAddr, dataLens_cons_data,
          dataLens_cons_prog, dataLens_nil] at hi ⊢
        simp only [List.length_append, List.length_cons, List.length_nil] at hi
        cases i with
        | zero =>
          simp only [List.cons_append, List.getD_cons_zero]
          have hrest : 1 ≤ (dataLens evs3).length := by omega
          rw [hlen3] at hrest
          have hTlt : T < L - st.written := by
            by_contra hcon
            push_neg at hcon
            have : L - (st.written + chunk) = 0 := by omega
            rw [this] at hrest
            have : (0 + T - 1) / T = 0 := Nat.div_eq_of_lt (by omega)
            omega
          omega
        | succ j =>
          simp only [List.cons_append, List.getD_cons_succ, List.nil_append]
          exact hget3 j (by omega)
    · refine ⟨st, [], ?_, rfl, rfl, ?_, ?_, ?_⟩
      · simp only [writeLoop]
        rw [if_neg hlt]
      · have hdiv : (T - 1) / T = 0 := Nat.div_eq_of_lt (by omega)
        have hz : L - st.written = 0 := by omega
        simp [hz, hdiv]
      · simp
        omega
      · intro i hi
        simp at hi

theorem cleanupRun_true (slen : Nat) (evs : List Ev) (buf : List Char) :
    cleanupRun slen true evs buf = ⟨true, evs ++ [.prog 100], buf⟩ := by
  simp [cleanupRun]

theorem cleanupRun_false_success (slen : Nat) (evs : List Ev) (buf : List Char) :
    (cleanupRun slen false evs buf).success = false := rfl

theorem cleanupRun_false_evs (slen : Nat) (evs : List Ev) (buf : List Char) :
    (cleanupRun slen false evs buf).evs = evs := by
  simp [cleanupRun]

theorem cleanupRun_false_buf (slen : Nat) (evs : List Ev) (buf : List Char)
    (hs : 2 ≤ slen) : (cleanupRun slen false evs buf).buf ≠ [] := by
  simp only [cleanupRun]
  split
  · exact set_status_ne_nil hs (by decide)
  · rename_i hcond
    intro hb
    exact hcond ⟨by trivial, by omega, hb⟩


theorem failPack (slen L : Nat) (evs : List Ev) (buf : List Char)
    (hchain : List.Chain' (· ≤ ·) (progList evs))
    (h100 : 100 ∉ progList evs)
    (hbok : ∀ e ∈ evs, blockOk e)
    (hdata : (dataLens evs).length ≤ L) :
    List.Chain' (· ≤ ·) (progList (cleanupRun slen false evs buf).evs) ∧
    (100 ∈ progList (cleanupRun slen false evs buf).evs ↔
      (cleanupRun slen false evs buf).success = true) ∧
    ((cleanupRun slen false evs buf).success = true →
      (progList (cleanupRun slen false evs buf).evs).count 100 = 1 ∧
      (progList (cleanupRun slen false evs buf).evs).getLast? = some 100) ∧
    (∀ e ∈ (cleanupRun slen false evs buf).evs, blockOk e) ∧
    (2 ≤ slen → (cleanupRun slen false evs buf).success = false →
      (cleanupRun slen false evs buf).buf ≠ []) ∧
    ((dataLens (cleanupRun slen false evs buf).evs).length ≤ L) := by
  rw [cleanupRun_false_evs, cleanupRun_false_success]
  refine ⟨hchain, by simp [h100], by simp, hbok, ?_, hdata⟩
  intro hs _
  exact cleanupRun_false_buf _ _ _ hs

theorem successPack (slen L : Nat) (evs : List Ev) (buf : List Char)
    (hchain : List.Chain' (· ≤ ·) (progList evs))
    (hb95 : ∀ p ∈ progList evs, p ≤ 95)
    (hbok : ∀ e ∈ evs, blockOk e)
    (hdata : (dataLens evs).length ≤ L) :
    List.Chain' (· ≤ ·) (progList (cleanupRun slen true (evs ++ [.prog 99]) buf).evs) ∧
    (100 ∈ progList (cleanupRun slen true (evs ++ [.prog 99]) buf).evs ↔
      (cleanupRun slen true (evs ++ [.prog 99]) buf).success = true) ∧
    ((cleanupRun slen true (evs ++ [.prog 99]) buf).success = true →
      (progList (cleanupRun slen true (evs ++ [.prog 99]) buf).evs).count 100 = 1 ∧
      (progList (cleanupRun slen true (evs ++ [.prog 99]) buf).evs).getLast? = some 100) ∧
    (∀ e ∈ (cleanupRun slen true (evs ++ [.prog 99]) buf).evs, blockOk e) ∧
    (2 ≤ slen → (cleanupRun slen true (evs ++ [.prog 99]) buf).success = false →
      (cleanupRun slen true (evs ++ [.prog 99]) buf).buf ≠ []) ∧
    ((dataLens (cleanupRun slen true (evs ++ [.prog 99]) buf).evs).length ≤ L) := by
  rw [cleanupRun_true]
  have hshape : progList (((evs ++ [Ev.prog 99]) ++ [Ev.prog 100])) =
      (progList evs ++ [99]) ++ [100] := by simp
  have h99 : List.Chain' (· ≤ ·) (progList evs ++ [99]) :=
    chain_le_append_last hchain (fun p hp => le_trans (hb95 p hp) (by omega))
  have hin99 : ∀ p ∈ progList evs ++ [99], p ≤ 99 := by
    intro p hp
    rcases List.mem_append.mp hp with h1 | h1
    · exact le_trans (hb95 p h1) (by omega)
    · simp at h1
      omega
  refine ⟨?_, ?_, ?_, ?_, ?_, ?_⟩
  · show List.Chain' (· ≤ ·) (progList ((evs ++ [Ev.prog 99]) ++ [Ev.prog 100]))
    rw [hshape]
    exact chain_le_append_last h99 (fun p hp => le_trans (hin99 p hp) (by omega))
  · constructor
    · intro _
      rfl
    · intro _
      show 100 ∈ progList ((evs ++ [Ev.prog 99]) ++ [Ev.prog 100])
      rw [hshape]
      simp
  · intro _
    constructor
    · show List.count 100 (progList ((evs ++ [Ev.prog 99]) ++ [Ev.prog 100])) = 1
      rw [hshape]
      rw [List.count_append]
      have hz : List.count 100 (progList evs ++ [99]) = 0 := by
        rw [List.count_eq_zero]
        intro hmem
        exact absurd (hin99 100 hmem) (by omega)
      rw [hz]
      rfl
    · show (progList ((evs ++ [Ev.prog 99]) ++ [Ev.prog 100])).getLast? = some 100
      rw [hshape]
      exact List.getLast?_concat _
  · intro e he
    rcases List.mem_append.mp he with h1 | h1
    · rcases List.mem_append.mp h1 with h2 | h2
      · exact hbok e h2
      · simp at h2
        subst h2
        trivial
    · simp at h1
      subst h1
      trivial
  · intro _ hcontra
    exact absurd hcontra (by simp)
  · show (dataLens ((evs ++ [Ev.prog 99]) ++ [Ev.prog 100])).length ≤ L
    simpa using hdata

theorem flashTail_facts (cmd : Nat → Bool) (slen : Nat) (L T : Nat)
    (layout : List Segment) (valid massErased mallocOk : Bool)
    (evsB : List Ev) (bufB : List Char) (idxB : Nat) (r : RunOut)
    (h : flashTail cmd slen L T layout valid massErased mallocOk evsB bufB idxB = some r)
    (hchainB : List.Chain' (· ≤ ·) (progList evsB ++ [if valid then 6 else 5]))
    (hppB : ∀ p ∈ progList evsB, p ≤ 6)
    (hbokB : ∀ e ∈ evsB, blockOk e)
    (hdataB : dataLens evsB = []) :
    List.Chain' (· ≤ ·) (progList r.evs) ∧
    (100 ∈ progList r.evs ↔ r.success = true) ∧
    (r.success = true → (progList r.evs).count 100 = 1 ∧
      (progList r.evs).getLast? = some 100) ∧
    (∀ e ∈ r.evs, blockOk e) ∧
    (2 ≤ slen → r.success = false → r.buf ≠ []) ∧
    ((dataLens r.evs).length ≤ L) := by
  have hbase : (if valid then 6 else 5) ≤ 6 := by cases valid <;> simp
  have hchainPre : List.Chain' (· ≤ ·) (progList evsB) :=
    (List.chain'_append.mp hchainB).1
  have hbokC : ∀ e ∈ evsB ++ [Ev.dnl 0 (DnlKind.setAddr STM32_BASE_ADDRESS)], blockOk e := by
    intro e he
    rcases List.mem_append.mp he with h1 | h1
    · exact hbokB e h1
    · simp at h1
      subst h1
      trivial
  unfold flashTail at h
  simp only [] at h
  split at h
  · cases h
    apply failPack
    · simpa using hchainPre
    · intro hmem
      simp at hmem
      exact absurd (hppB 100 hmem) (by omega)
    · exact hbokC
    · simp [hdataB]
  · split at h
    · cases h
      apply failPack
      · simpa using hchainB
      · intro hmem
        simp only [progList_append, progList_cons_dnl, progList_cons_prog, progList_nil,
          List.append_nil, List.nil_append, List.mem_append, List.mem_singleton] at hmem
        rcases hmem with h1 | h1
        · exact absurd (hppB 100 h1) (by omega)
        · omega
      · intro e he
        rcases List.mem_append.mp he with h1 | h1
        · exact hbokC e h1
        · simp at h1
          subst h1
          trivial
      · simp [hdataB]
    · split at h
      · exact absurd h (by simp)
      · rename_i st2 evsL heqLoop
        cases h
        obtain ⟨hLoopChain, hLoop95⟩ :=
          writeLoop_prog cmd slen L T layout valid massErased L _ _ _ _ heqLoop
        rw [reportPct_zero] at hLoopChain
        obtain ⟨hbokL, hdlL, _, _⟩ :=
          writeLoop_invariants cmd slen L T layout valid massErased L _ _ _ _ heqLoop
        have hshape : progList (((evsB ++ [Ev.dnl 0 (DnlKind.setAddr STM32_BASE_ADDRESS)]) ++
            [Ev.prog (if valid = true then 6 else 5)]) ++ evsL) =
            (progList evsB ++ [if valid = true then 6 else 5]) ++ progList evsL := by
          simp
        apply failPack
        · rw [hshape]
          refine List.chain'_append.mpr ⟨hchainB, (List.chain'_cons'.mp hLoopChain).2, ?_⟩
          intro x hx y hy
          rw [List.getLast?_concat] at hx
          simp at hx
          subst hx
          exact (List.chain'_cons'.mp hLoopChain).1 y hy
        · intro hmem
          rw [hshape] at hmem
          simp only [List.mem_append, List.mem_singleton] at hmem
          rcases hmem with (h1 | h1) | h1
          · exact absurd (hppB 100 h1) (by omega)
          · omega
          · exact absurd (hLoop95 100 h1) (by omega)
        · intro e he
          rcases List.mem_append.mp he with h1 | h1
          · rcases List.mem_append.mp h1 with h2 | h2
            · exact hbokC e h2
            · simp at h2
              subst h2
              trivial
          · exact hbokL e h1
        · simpa [hdataB] using hdlL
      · rename_i st2 evsL heqLoop
        obtain ⟨hLoopChain, hLoop95⟩ :=
          writeLoop_prog cmd slen L T layout valid massErased L _ _ _ _ heqLoop
        rw [reportPct_zero] at hLoopChain
        obtain ⟨hbokL, hdlL, _, _⟩ :=
          writeLoop_invariants cmd slen L T layout valid massErased L _ _ _ _ heqLoop
        have hshapeF : progList ((((evsB ++ [Ev.dnl 0 (DnlKind.setAddr STM32_BASE_ADDRESS)]) ++
            [Ev.prog (if valid = true then 6 else 5)]) ++ evsL) ++ [Ev.dnl 2 DnlKind.finalize]) =
            (progList evsB ++ [if valid = true then 6 else 5]) ++ progList evsL := by
          simp
        have hchainF : List.Chain' (· ≤ ·)
            ((progList evsB ++ [if valid = true then 6 else 5]) ++ progList evsL) := by
          refine List.chain'_append.mpr ⟨hchainB, (List.chain'_cons'.mp hLoopChain).2, ?_⟩
          intro x hx y hy
          rw [List.getLast?_concat] at hx
          simp at hx
          subst hx
          exact (List.chain'_cons'.mp hLoopChain).1 y hy
        have h100F : 100 ∉ (progList evsB ++ [if valid = true then 6 else 5]) ++ progList evsL := by
          intro hmem
          simp only [List.mem_append, List.mem_singleton] at hmem
          rcases hmem with (h1 | h1) | h1
          · exact absurd (hppB 100 h1) (by omega)
          · omega
          · exact absurd (hLoop95 100 h1) (by omega)
        have hbokF : ∀ e ∈ (((evsB ++ [Ev.dnl 0 (DnlKind.setAddr STM32_BASE_ADDRESS)]) ++
            [Ev.prog (if valid = true then 6 else 5)]) ++ evsL) ++ [Ev.dnl 2 DnlKind.finalize],
            blockOk e := by
          intro e he
          rcases List.mem_append.mp he with h1 | h1
          · rcases List.mem_append.mp h1 with h2 | h2
            · rcases List.mem_append.mp h2 with h3 | h3
              · exact hbokC e h3
              · simp at h3
                subst h3
                trivial
            · exact hbokL e h2
          · simp at h1
            subst h1
            trivial
        have hdataF : (dataLens ((((evsB ++ [Ev.dnl 0 (DnlKind.setAddr STM32_BASE_ADDRESS)]) ++
            [Ev.prog (if valid = true then 6 else 5)]) ++ evsL) ++
            [Ev.dnl 2 DnlKind.finalize])).length ≤ L := by
          simpa [hdataB] using hdlL
        split at h
        · cases h
          apply failPack
          · rw [hshapeF]
            exact hchainF
          · rw [hshapeF]
            exact h100F
          · exact hbokF
          · exact hdataF
        · cases h
          apply successPack
          · rw [hshapeF]
            exact hchainF
          · intro p hp
            rw [hshapeF] at hp
            simp only [List.mem_append, List.mem_singleton] at hp
            rcases hp with (h1 | h1) | h1
            · exact le_trans (hppB p h1) (by omega)
            · omega
            · exact hLoop95 p h1
          · exact hbokF
          · exact hdataF

theorem flash_run_facts (load : Option Nat) (usbOk : Bool) (dev : Option Device)
    (mallocOk : Bool) (cmd : Nat → Bool) (slen : Nat) (buf0 : List Char) (r : RunOut)
    (h : dfu_loader_flash load usbOk dev mallocOk cmd slen buf0 = some r) :
    List.Chain' (· ≤ ·) (progList r.evs) ∧
    (100 ∈ progList r.evs ↔ r.success = true) ∧
    (r.success = true → (progList r.evs).count 100 = 1 ∧
      (progList r.evs).getLast? = some 100) ∧
    (∀ e ∈ r.evs, blockOk e) ∧
    (2 ≤ slen → r.success = false → r.buf ≠ []) ∧
    (∀ L, load = some L → (dataLens r.evs).length ≤ L) := by
  unfold dfu_loader_flash at h
  cases load with
  | none =>
    simp only [] at h
    cases h
    refine ⟨by simp [cleanupRun_false_evs], ?_, by simp [cleanupRun_false_success], ?_, ?_, ?_⟩
    · simp [cleanupRun_false_evs, cleanupRun_false_success]
    · simp [cleanupRun_false_evs]
      trivial
    · intro hs _
      exact cleanupRun_false_buf _ _ _ hs
    · intro L hL
      simp at hL
  | some L =>
    simp only [] at h
    by_cases husb : usbOk = false
    · rw [if_pos husb] at h
      cases h
      refine ⟨by simp [cleanupRun_false_evs], ?_, by simp [cleanupRun_false_success], ?_, ?_, ?_⟩
      · simp [cleanupRun_false_evs, cleanupRun_false_success]
      · simp [cleanupRun_false_evs]
        trivial
      · intro hs _
        exact cleanupRun_false_buf _ _ _ hs
      · intro L2 hL2
        simp [cleanupRun_false_evs]
    · rw [if_neg husb] at h
      cases dev with
      | none =>
        simp only [] at h
        cases h
        refine ⟨by simp [cleanupRun_false_evs], ?_, by simp [cleanupRun_false_success], ?_, ?_, ?_⟩
        · simp [cleanupRun_false_evs, cleanupRun_false_success]
        · simp [cleanupRun_false_evs]
          trivial
        · intro hs _
          exact cleanupRun_false_buf _ _ _ hs
        · intro L2 hL2
          simp [cleanupRun_false_evs]
      | some d =>
        simp only [] at h
        by_cases hc0 : cmd 0 = false
        · rw [if_pos hc0] at h
          cases h
          refine ⟨by simp [cleanupRun_false_evs], ?_, by simp [cleanupRun_false_success],
            ?_, ?_, ?_⟩
          · simp [cleanupRun_false_evs, cleanupRun_false_success]
          · intro e he
            simp [cleanupRun_false_evs] at he
            rcases he with rfl | rfl <;> trivial
          · intro hs _
            exact cleanupRun_false_buf _ _ _ hs
          · intro L2 hL2
            simp [cleanupRun_false_evs]
        · rw [if_neg hc0] at h
          by_cases hval : (!(parse_alt_memory_layout d.alt_name).isEmpty) = true
          · rw [if_pos hval] at h
            simp only [] at h
            refine (fun pack => ⟨pack.1, pack.2.1, pack.2.2.1, pack.2.2.2.1, pack.2.2.2.2.1,
                fun L2 hL2 => by cases hL2; exact pack.2.2.2.2.2⟩)
              (flashTail_facts cmd slen L d.transfer_size
                (parse_alt_memory_layout d.alt_name) _ false mallocOk _ _ 1 r h ?_ ?_ ?_ ?_)
            · simp only [progList_append, progList_cons_prog, progList_cons_prepare,
                progList_nil, List.nil_append, List.singleton_append]
              refine List.chain'_cons.mpr ⟨Nat.zero_le _, List.chain'_singleton _⟩
            · intro p hp
              simp only [progList_append, progList_cons_prog, progList_cons_prepare,
                progList_nil, List.nil_append, List.singleton_append] at hp
              simp at hp
              omega
            · intro e he
              simp at he
              rcases he with rfl | rfl <;> trivial
            · simp
          · rw [if_neg hval] at h
            by_cases hc1 : cmd 1 = false
            · rw [if_pos hc1] at h
              simp only [] at h
              cases h
              refine ⟨?_, ?_, by simp [cleanupRun_false_success], ?_, ?_, ?_⟩
              · simp [cleanupRun_false_evs]
              · simp [cleanupRun_false_evs, cleanupRun_false_success]
              · intro e he
                simp [cleanupRun_false_evs] at he
                rcases he with rfl | rfl | rfl | rfl <;> trivial
              · intro hs _
                exact cleanupRun_false_buf _ _ _ hs
              · intro L2 hL2
                simp [cleanupRun_false_evs]
            · rw [if_neg hc1] at h
              by_cases hc2 : cmd 2 = false
              · rw [if_pos hc2] at h
                simp only [] at h
                cases h
                refine ⟨?_, ?_, by simp [cleanupRun_false_success], ?_, ?_, ?_⟩
                · simp [cleanupRun_false_evs]
                · simp [cleanupRun_false_evs, cleanupRun_false_success]
                · intro e he
                  simp [cleanupRun_false_evs] at he
                  rcases he with rfl | rfl | rfl | rfl | rfl <;> trivial
                · intro hs _
                  exact cleanupRun_false_buf _ _ _ hs
                · intro L2 hL2
                  simp [cleanupRun_false_evs]
              · rw [if_neg hc2] at h
                simp only [] at h
                refine (fun pack => ⟨pack.1, pack.2.1, pack.2.2.1, pack.2.2.2.1,
                    pack.2.2.2.2.1, fun L2 hL2 => by cases hL2; exact pack.2.2.2.2.2⟩)
                  (flashTail_facts cmd slen L d.transfer_size
                    (parse_alt_memory_layout d.alt_name) _ true mallocOk _ _ 3 r h ?_ ?_ ?_ ?_)
                · simp only [progList_append, progList_cons_prog, progList_cons_prepare,
                    progList_cons_dnl, progList_nil, List.nil_append, List.append_nil,
                    List.singleton_append]
                  have hx : 5 ≤ (if (!(parse_alt_memory_layout d.alt_name).isEmpty) = true
                      then 6 else 5) := by split <;> omega
                  refine List.chain'_cons.mpr ⟨by omega, ?_⟩
                  refine List.chain'_cons.mpr ⟨by omega, List.chain'_singleton _⟩
                · intro p hp
                  simp only [progList_append, progList_cons_prog, progList_cons_prepare,
                    progList_cons_dnl, progList_nil, List.nil_append, List.append_nil,
                    List.singleton_append] at hp
                  simp at hp
                  rcases hp with rfl | rfl <;> omega
                · intro e he
                  simp at he
                  rcases he with rfl | rfl | rfl | rfl | rfl <;> trivial
                · simp

theorem c1_chunking_main (L : Nat) (d : Device) (cmd : Nat → Bool) (slen : Nat)
    (buf0 : List Char)
    (hL : 1 ≤ L) (hT : 1 ≤ d.transfer_size)
    (hparse : parse_alt_memory_layout d.alt_name = [])
    (hcmd : ∀ n, cmd n = true) :
    ∃ r, dfu_loader_flash (some L) true (some d) true cmd slen buf0 = some r ∧
      r.success = true ∧
      dnlTrace r.evs = (dataLens r.evs).map some ++ [none] ∧
      (dataLens r.evs).length = (L + d.transfer_size - 1) / d.transfer_size ∧
      (dataLens r.evs).sum = L ∧
      (∀ i, i + 1 < (dataLens r.evs).length →
        (dataLens r.evs).getD i 0 = d.transfer_size) := by
  obtain ⟨st', evsL, hrec, hbuf, htr, hlen, hsum, hget⟩ :=
    writeLoop_invalid cmd slen L d.transfer_size (parse_alt_memory_layout d.alt_name)
      true hcmd hT L ⟨0, 0xFFFFFFFF, 4,
        set_status slen (set_status slen (set_status slen (set_status slen
          (set_status slen (set_status slen (set_status slen (set_status slen
            buf0 msgLoading) msgUsbInit) msgWaitDev) msgUsingIface) msgPreparing)
              msgMassErase) msgSetAddr) msgWriting⟩
      (by dsimp only; omega)
  dsimp only at hrec hlen hsum
  simp only [dfu_loader_flash, flashTail, hparse, hcmd]
  simp only [List.isEmpty_nil, Bool.not_true, Bool.false_eq_true, if_false,
    Bool.true_eq_false]
  rw [hparse] at hrec
  rw [hrec]
  simp only [Option.map_some]
  refine ⟨_, rfl, ?_, ?_, ?_, ?_, ?_⟩
  · simp [cleanupRun_true]
  · simp [cleanupRun_true, htr]
  · simp only [cleanupRun_true]
    simp
    simpa using hlen
  · simp only [cleanupRun_true]
    simp
    simpa using hsum
  · intro i hi
    simp only [cleanupRun_true] at hi ⊢
    simp only [dataLens_append, dataLens_cons_prog, dataLens_cons_prepare,
      dataLens_cons_massErase, dataLens_cons_setAddr, dataLens_cons_finalize,
      dataLens_nil, List.nil_append, List.append_nil] at hi ⊢
    exact hget i hi

theorem flashTail_total (cmd : Nat → Bool) (slen : Nat) (L T : Nat)
    (layout : List Segment) (valid massErased mallocOk : Bool)
    (evsB : List Ev) (bufB : List Char) (idxB : Nat)
    (hT : 1 ≤ T) (hp : ∀ s ∈ layout, 0 < s.page_size) :
    flashTail cmd slen L T layout valid massErased mallocOk evsB bufB idxB ≠ none := by
  intro hnone
  unfold flashTail at hnone
  simp only [] at hnone
  split at hnone
  · cases hnone
  · split at hnone
    · cases hnone
    · split at hnone
      · rename_i hloop
        exact absurd hloop
          (writeLoop_total cmd slen L T layout valid massErased hT hp L _
            (by dsimp only; omega))
      · cases hnone
      · split at hnone
        · cases hnone
        · cases hnone

theorem flash_total (load : Option Nat) (usbOk : Bool) (dev : Option Device)
    (mallocOk : Bool) (cmd : Nat → Bool) (slen : Nat) (buf0 : List Char)
    (hT : ∀ d, dev = some d → 1 ≤ d.transfer_size) :
    dfu_loader_flash load usbOk dev mallocOk cmd slen buf0 ≠ none := by
  intro hnone
  unfold dfu_loader_flash at hnone
  cases load with
  | none =>
    simp only [] at hnone
    exact Option.noConfusion hnone
  | some L =>
    simp only [] at hnone
    by_cases husb : usbOk = false
    · rw [if_pos husb] at hnone
      exact Option.noConfusion hnone
    · rw [if_neg husb] at hnone
      cases dev with
      | none =>
        simp only [] at hnone
        exact Option.noConfusion hnone
      | some d =>
        simp only [] at hnone
        by_cases hc0 : cmd 0 = false
        · rw [if_pos hc0] at hnone
          exact Option.noConfusion hnone
        · rw [if_neg hc0] at hnone
          by_cases hval : (!(parse_alt_memory_layout d.alt_name).isEmpty) = true
          · rw [if_pos hval] at hnone
            simp only [] at hnone
            exact flashTail_total cmd slen L d.transfer_size _ _ false mallocOk _ _ 1
              (hT d rfl) (parse_alt_memory_layout_page_pos d.alt_name) hnone
          · rw [if_neg hval] at hnone
            by_cases hc1 : cmd 1 = false
            · rw [if_pos hc1] at hnone
              simp only [] at hnone
              exact Option.noConfusion hnone
            · rw [if_neg hc1] at hnone
              by_cases hc2 : cmd 2 = false
              · rw [if_pos hc2] at hnone
                simp only [] at hnone
                exact Option.noConfusion hnone
              · rw [if_neg hc2] at hnone
                simp only [] at hnone
                exact flashTail_total cmd slen L d.transfer_size _ _ true mallocOk _ _ 3
                  (hT d rfl) (parse_alt_memory_layout_page_pos d.alt_name) hnone

theorem descLoop_pos (extra : List Nat) : 1 ≤ descLoop extra := by
  have main : ∀ (n : Nat) (l : List Nat), l.length ≤ n → 1 ≤ descLoop l := by
    intro n
    induction n with
    | zero =>
      intro l h
      rw [descLoop]
      rw [if_neg (by omega)]
      omega
    | succ n ih =>
      intro l h
      rw [descLoop]
      by_cases h9 : 9 ≤ l.length
      · rw [if_pos h9]
        simp only []
        by_cases hc1 : (l.headD 0 % 256) < 3 ∨ l.length < (l.headD 0 % 256)
        · rw [if_pos hc1]
          omega
        · rw [if_neg hc1]
          by_cases hc2 : (l.getD 1 0 % 256) = 33 ∧ 9 ≤ (l.headD 0 % 256)
          · rw [if_pos hc2]
            by_cases hc3 : (l.getD 5 0 % 256 + (l.getD 6 0 % 256) * 256) = 0
            · rw [if_pos hc3]
              omega
            · rw [if_neg hc3]
              omega
          · rw [if_neg hc2]
            refine ih (l.drop (l.headD 0 % 256)) ?_
            simp only [List.length_drop]
            omega
      · rw [if_neg h9]
        omega
  exact main extra.length extra (by omega)

theorem parse_transfer_size_pos (extra : List Nat) : 1 ≤ parse_transfer_size extra := by
  unfold parse_transfer_size
  split
  · omega
  · exact descLoop_pos extra

theorem writeLoopA_blocks (T : Nat) :
    ∀ (fuel bn w L : Nat),
      List.Chain' (fun x y => y = (x + 1) % 65536)
        ((writeLoopA T bn w fuel L).map Prod.fst) ∧
      (∀ x ∈ ((writeLoopA T bn w fuel L).map Prod.fst).head?, x = bn) := by
  intro fuel
  induction fuel with
  | zero =>
    intro bn w L
    simp [writeLoopA]
  | succ fuel ih =>
    intro bn w L
    simp only [writeLoopA]
    by_cases hw : w < L
    · rw [if_pos hw]
      simp only [List.map_cons]
      obtain ⟨hch, hhd⟩ := ih ((bn + 1) % 65536) (w + min (L - w) T) L
      constructor
      · refine List.chain'_cons'.mpr ⟨?_, hch⟩
        intro y hy
        exact hhd y hy
      · intro x hx
        simp at hx
        exact hx.symm
    · rw [if_neg hw]
      simp

/-- C1: with an unknown memory layout, a run over an image of length `L ≥ 1`
with transfer size `T ≥ 1` issues exactly `⌈L/T⌉` data blocks whose sizes sum
to `L`, all but the last of size `T`, followed by the zero-length finalize
block; in particular 3000 bytes at `T = 1024` gives blocks of 1024, 1024 and
952 bytes and then the finalize block. -/
theorem c1_unknown_layout_chunking :
    (∀ (L : Nat) (d : Device) (cmd : Nat → Bool) (slen : Nat) (buf0 : List Char),
      1 ≤ L → 1 ≤ d.transfer_size → parse_alt_memory_layout d.alt_name = [] →
      (∀ n, cmd n = true) →
      ∃ r, dfu_loader_flash (some L) true (some d) true cmd slen buf0 = some r ∧
        r.success = true ∧
        dnlTrace r.evs = (dataLens r.evs).map some ++ [none] ∧
        (dataLens r.evs).length = (L + d.transfer_size - 1) / d.transfer_size ∧
        (dataLens r.evs).sum = L ∧
        (∀ i, i + 1 < (dataLens r.evs).length →
          (dataLens r.evs).getD i 0 = d.transfer_size)) ∧
    (dfu_loader_flash (some 3000) true (some ⟨1024, []⟩) true (fun _ => true) 0 []).map
      (fun r => dnlTrace r.evs) = some [some 1024, some 1024, some 952, none] := by
  refine ⟨?_, by decide⟩
  intro L d cmd slen buf0 hL hT hparse hcmd
  exact c1_chunking_main L d cmd slen buf0 hL hT hparse hcmd

/-- C1 witness: a 2-byte image at transfer size 1 is cut into two 1-byte
blocks. -/
theorem c1_unknown_layout_chunking_witness :
    ∃ r, dfu_loader_flash (some 2) true (some ⟨1, []⟩) true (fun _ => true) 0 [] =
        some r ∧
      r.success = true ∧
      dnlTrace r.evs = (dataLens r.evs).map some ++ [none] ∧
      (dataLens r.evs).length = (2 + 1 - 1) / 1 ∧
      (dataLens r.evs).sum = 2 ∧
      (∀ i, i + 1 < (dataLens r.evs).length → (dataLens r.evs).getD i 0 = 1) :=
  c1_unknown_layout_chunking.1 2 ⟨1, []⟩ (fun _ => true) 0 [] (by decide) (by decide)
    (by decide) (fun _ => rfl)

/-- C2 counterexample: with a poll timeout of 2 ms the source sleeps 2 ms
(`bwPollTimeout > 0 ? bwPollTimeout : 5`), not the claimed
`max(bwPollTimeout, 5) = 5` ms. -/
theorem c2_sleep_counterexample :
    dfu_wait_ready false [.reply 0 3 2, .reply 0 2 0] = some (true, [.sleep 2]) ∧
    (2 : Nat) ≠ max 2 5 := by decide

/-- C2 (corrected): `dfu_wait_ready` follows the spec's case analysis —
device vanished succeeds iff `allow_manifest`, other transport errors fail,
nonzero status issues one CLRSTATUS and fails with the raw codes, dfuIDLE and
dfuDNLOAD_IDLE succeed, manifest states succeed iff `allow_manifest`, dfuERROR
issues one CLRSTATUS and fails — except that the retry sleep is the raw poll
timeout when positive and 5 ms only when it is zero, not
`max(timeout, 5)`. -/
theorem c2_wait_ready_cases (allow : Bool) (rest : List GetStatusResult)
    (status state timeout : Nat) :
    dfu_wait_ready allow (.noDevice :: rest) = some (allow, []) ∧
    dfu_wait_ready allow (.transportErr :: rest) = some (false, [.msgTransport]) ∧
    (status ≠ 0 →
      dfu_wait_ready allow (.reply status state timeout :: rest) =
        some (false, [.clrStatus, .msgStatusFault status state])) ∧
    (state = 2 ∨ state = 5 →
      dfu_wait_ready allow (.reply 0 state timeout :: rest) = some (true, [])) ∧
    (state = 6 ∨ state = 7 ∨ state = 8 →
      dfu_wait_ready allow (.reply 0 state timeout :: rest) = some (allow, [])) ∧
    (state = 10 →
      dfu_wait_ready allow (.reply 0 state timeout :: rest) =
        some (false, [.clrStatus, .msgErrorState])) ∧
    (state ≠ 2 → state ≠ 5 → state ≠ 6 → state ≠ 7 → state ≠ 8 → state ≠ 10 →
      dfu_wait_ready allow (.reply 0 state timeout :: rest) =
        (dfu_wait_ready allow rest).map
          (fun r => (r.1, WEv.sleep (if 0 < timeout then timeout else 5) :: r.2))) := by
  refine ⟨rfl, rfl, ?_, ?_, ?_, ?_, ?_⟩
  · intro h
    simp [dfu_wait_ready, h]
  · intro h
    rcases h with h | h <;> subst h <;> simp [dfu_wait_ready]
  · intro h
    rcases h with h | h | h <;> subst h <;> simp [dfu_wait_ready]
  · intro h
    subst h
    simp [dfu_wait_ready]
  · intro h2 h5 h6 h7 h8 h10
    simp [dfu_wait_ready, h2, h5, h6, h7, h8, h10]

/-- C2 witness: the case analysis evaluated on concrete replies, including a
2 ms sleep taken from the device's poll timeout. -/
theorem c2_wait_ready_cases_witness :
    dfu_wait_ready false [.reply 1 3 0] =
      some (false, [.clrStatus, .msgStatusFault 1 3]) ∧
    dfu_wait_ready false [.reply 0 2 0] = some (true, []) ∧
    dfu_wait_ready false [.reply 0 7 0] = some (false, []) ∧
    dfu_wait_ready false [.reply 0 10 0] = some (false, [.clrStatus, .msgErrorState]) ∧
    dfu_wait_ready false [.reply 0 3 2, .reply 0 2 0] =
      (dfu_wait_ready false [.reply 0 2 0]).map
        (fun r => (r.1, WEv.sleep 2 :: r.2)) :=
  ⟨(c2_wait_ready_cases false [] 1 3 0).2.2.1 (by decide),
   (c2_wait_ready_cases false [] 0 2 0).2.2.2.1 (Or.inl rfl),
   (c2_wait_ready_cases false [] 0 7 0).2.2.2.2.1 (Or.inr (Or.inl rfl)),
   (c2_wait_ready_cases false [] 0 10 0).2.2.2.2.2.1 rfl,
   (c2_wait_ready_cases false [.reply 0 2 0] 0 3 2).2.2.2.2.2.2
     (by decide) (by decide) (by decide) (by decide) (by decide) (by decide)⟩

/-- C3 counterexample: the claimed descriptor string has no `/` before its
`0x` group, so `strchr(cursor, '/')` lands inside it and no group matches the
grammar; the parse is empty, not the claimed two segments. -/
theorem c3_parse_counterexample :
    parse_alt_memory_layout "0x08000000/16*001Ka,112*001Kg".toList = [] ∧
    ([] : List Segment) ≠
      [⟨0x08000000, 0x08004000, 1024⟩, ⟨0x08004000, 0x08022000, 1024⟩] := by decide

/-- C3 (corrected): layout parsing is a pure function of the string, the
claimed string `"0x08000000/16*001Ka,112*001Kg"` parses to no segments, and
even with a leading `/` only the first sector group is decoded (the cursor
resumes after `001Ka`, and `,112*001Kg` contains no further `/`), giving the
single segment `[0x08000000, 0x08004000)` with page size 1024. -/
theorem c3_parse_layout :
    (∀ cs : List Char, parse_alt_memory_layout cs = parse_alt_memory_layout cs) ∧
    parse_alt_memory_layout "0x08000000/16*001Ka,112*001Kg".toList = [] ∧
    parse_alt_memory_layout "/0x08000000/16*001Ka,112*001Kg".toList =
      [⟨0x08000000, 0x08004000, 1024⟩] :=
  ⟨fun _ => rfl, by decide, by decide⟩

/-- C4 counterexample: in the layout-aware loader the second data chunk is
again sent as block 2 (`data_block_number` is never incremented), not 3. -/
theorem c4_constant_block_counterexample :
    (dfu_loader_flash (some 2) true (some ⟨1, []⟩) true (fun _ => true) 0 []).map
      (fun r => dataBlockNums r.evs) = some [2, 2] ∧
    [2, 2] ≠ [2, 3] := by decide

/-- C4 (corrected): in the layout-aware loader every data and finalize block
of any run uses the constant block number 2 and vendor commands block 0
(`blockOk`); the per-chunk increment from 2 modulo 2^16 is the behaviour of
the simpler first loader variant (`writeLoopA`). -/
theorem c4_block_numbers :
    (∀ (load : Option Nat) (usbOk : Bool) (dev : Option Device) (mallocOk : Bool)
       (cmd : Nat → Bool) (slen : Nat) (buf0 : List Char) (r : RunOut),
      dfu_loader_flash load usbOk dev mallocOk cmd slen buf0 = some r →
      ∀ e ∈ r.evs, blockOk e) ∧
    (∀ L T : Nat,
      List.Chain' (fun x y => y = (x + 1) % 65536) (blockNumbersA L T) ∧
      ∀ x ∈ (blockNumbersA L T).head?, x = 2) := by
  constructor
  · intro load usbOk dev mallocOk cmd slen buf0 r h
    exact (flash_run_facts load usbOk dev mallocOk cmd slen buf0 r h).2.2.2.1
  · intro L T
    simp only [blockNumbersA]
    exact writeLoopA_blocks T L 2 0 L

/-- C4 witness: block-number facts evaluated on a trivial failed run and on a
three-chunk variant-A run. -/
theorem c4_block_numbers_witness :
    (∀ e ∈ (RunOut.mk false [Ev.prog 0] []).evs, blockOk e) ∧
    (List.Chain' (fun x y => y = (x + 1) % 65536) (blockNumbersA 3 1) ∧
      ∀ x ∈ (blockNumbersA 3 1).head?, x = 2) :=
  ⟨c4_block_numbers.1 none true none true (fun _ => true) 0 []
      ⟨false, [Ev.prog 0], []⟩ (by decide),
   c4_block_numbers.2 3 1⟩

/-- C5 counterexample: a sector group with page count 0 is stored as the
degenerate segment `[0x1000, 0x1000)`, violating the claimed
`start < end` invariant. -/
theorem c5_degenerate_segment_counterexample :
    parse_alt_memory_layout "/0x1000/0*1K".toList = [⟨4096, 4096, 1024⟩] ∧
    ¬(4096 < 4096) := by decide

/-- C5 (corrected): the only part of the MemorySegment invariant the parser
actually guarantees is a positive page size (groups with `page_size == 0` are
skipped); `start < end` can fail for a zero page count. -/
theorem c5_parsed_page_size_pos (alt_name : List Char) :
    ∀ seg ∈ parse_alt_memory_layout alt_name, 0 < seg.page_size :=
  parse_alt_memory_layout_page_pos alt_name

/-- C5 witness: the degenerate parsed segment still has its positive page
size 1024. -/
theorem c5_parsed_page_size_pos_witness :
    0 < (Segment.mk 4096 4096 1024).page_size :=
  c5_parsed_page_size_pos "/0x1000/0*1K".toList ⟨4096, 4096, 1024⟩ (by decide)

/-- C6: across any run of `dfu_loader_flash` the reported percentages are
non-decreasing, and 100 is reported iff the run succeeds — exactly once and
as the last report. -/
theorem c6_progress_monotone (load : Option Nat) (usbOk : Bool) (dev : Option Device)
    (mallocOk : Bool) (cmd : Nat → Bool) (slen : Nat) (buf0 : List Char) (r : RunOut)
    (h : dfu_loader_flash load usbOk dev mallocOk cmd slen buf0 = some r) :
    List.Chain' (· ≤ ·) (progList r.evs) ∧
    (100 ∈ progList r.evs ↔ r.success = true) ∧
    (r.success = true → (progList r.evs).count 100 = 1 ∧
      (progList r.evs).getLast? = some 100) := by
  obtain ⟨h1, h2, h3, _, _, _⟩ := flash_run_facts load usbOk dev mallocOk cmd slen buf0 r h
  exact ⟨h1, h2, h3⟩

/-- C6 witness: the progress facts evaluated on the run that fails to load
the firmware file. -/
theorem c6_progress_monotone_witness :
    List.Chain' (· ≤ ·) (progList (RunOut.mk false [Ev.prog 0] []).evs) ∧
    (100 ∈ progList (RunOut.mk false [Ev.prog 0] []).evs ↔
      (RunOut.mk false [Ev.prog 0] []).success = true) ∧
    ((RunOut.mk false [Ev.prog 0] []).success = true →
      (progList (RunOut.mk false [Ev.prog 0] []).evs).count 100 = 1 ∧
      (progList (RunOut.mk false [Ev.prog 0] []).evs).getLast? = some 100) :=
  c6_progress_monotone none true none true (fun _ => true) 0 []
    ⟨false, [Ev.prog 0], []⟩ (by decide)

/-- C7: every `dfu_erase_range` call issues a sequence of erase-page commands
whose consecutive pages differ, starting away from the incoming
`last_erased_page`; re-erasing the same single-page range with the updated
accumulator issues zero further erase commands. -/
theorem c7_erase_planner :
    (∀ (valid : Bool) (layout : List Segment) (cmd : Nat → Bool)
       (slen addr len : Nat) (a : EraseAcc) (out : EraseOut),
       dfu_erase_range valid layout cmd slen addr len a = some out →
       ∃ ps : List Nat, (accOf out).evs = a.evs ++ ps.map eraseEv ∧
         List.Chain' (· ≠ ·) (a.last :: ps)) ∧
    (dfu_erase_range true [⟨0x08000000, 0x08008000, 0x8000⟩] (fun _ => true) 0
       0x08000000 16 ⟨0xFFFFFFFF, 0, [], []⟩ =
       some (.ok ⟨0x08000000, 1, [eraseEv 0x08000000], []⟩) ∧
     dfu_erase_range true [⟨0x08000000, 0x08008000, 0x8000⟩] (fun _ => true) 0
       0x08000000 16 ⟨0x08000000, 1, [], []⟩ =
       some (.ok ⟨0x08000000, 1, [], []⟩)) := by
  constructor
  · intro valid layout cmd slen addr len a out h
    obtain ⟨ps, h1, h2, _, _, _⟩ :=
      dfu_erase_range_shape valid layout cmd slen addr len a out h
    exact ⟨ps, h1, h2⟩
  · exact ⟨by decide, by decide⟩

/-- C7 witness: the per-call shape evaluated on an unknown-layout call, which
issues no erase commands at all. -/
theorem c7_erase_planner_witness :
    ∃ ps : List Nat,
      (accOf (EraseOut.ok ⟨0, 0, [], []⟩)).evs =
        (EraseAcc.mk 0 0 [] []).evs ++ ps.map eraseEv ∧
      List.Chain' (· ≠ ·) ((EraseAcc.mk 0 0 [] []).last :: ps) :=
  c7_erase_planner.1 false [] (fun _ => true) 0 0 0 ⟨0, 0, [], []⟩
    (.ok ⟨0, 0, [], []⟩) (by decide)

/-- C8: any segment `find_segment` returns contains the address; on a layout
of pairwise non-overlapping segments it returns exactly the containing
segment whenever one contains the address; it returns `none` when no segment
contains the address; the exclusive end 0x08022000 of a 17×8K segment is
outside it, and the flash run that reaches it fails with the
address-out-of-range message. -/
theorem c8_find_segment :
    (∀ (layout : List Segment) (a : Nat) (s : Segment),
       find_segment layout a = some s → s ∈ layout ∧ s.start ≤ a ∧ a < s.end_) ∧
    (∀ (layout : List Segment) (a : Nat),
       List.Pairwise (fun s t => s.end_ ≤ t.start ∨ t.end_ ≤ s.start) layout →
       ∀ s ∈ layout, s.start ≤ a → a < s.end_ → find_segment layout a = some s) ∧
    (∀ (layout : List Segment) (a : Nat),
       (∀ s ∈ layout, ¬(s.start ≤ a ∧ a < s.end_)) → find_segment layout a = none) ∧
    find_segment (parse_alt_memory_layout "/0x08000000/17*8Kg".toList) 0x08022000 =
      none ∧
    (dfu_loader_flash (some 139265) true (some ⟨32768, "/0x08000000/17*8Kg".toList⟩)
       true (fun _ => true) 20 []).map (fun r => (r.success, r.buf)) =
      some (false, msgAddrOut.take 19) := by
  refine ⟨?_, ?_, ?_, by decide, by decide⟩
  · intro layout a s h
    have h1 := List.mem_of_find?_eq_some h
    have h2 := List.find?_some h
    simp only [Bool.and_eq_true, decide_eq_true_eq] at h2
    exact ⟨h1, h2.1, h2.2⟩
  · intro layout a
    induction layout with
    | nil =>
      intro _ s hmem
      simp at hmem
    | cons h t ih =>
      intro hpw s hmem hs1 hs2
      rw [List.pairwise_cons] at hpw
      unfold find_segment
      by_cases hca : h.start ≤ a ∧ a < h.end_
      · rw [List.find?_cons_of_pos _ (by simp [hca.1, hca.2])]
        rcases List.mem_cons.mp hmem with rfl | hmem2
        · rfl
        · exfalso
          obtain ⟨hc1, hc2⟩ := hca
          rcases hpw.1 s hmem2 with hcase | hcase <;> omega
      · rw [List.find?_cons_of_neg _
            (by simp only [Bool.and_eq_true, decide_eq_true_eq]; exact hca)]
        rcases List.mem_cons.mp hmem with rfl | hmem2
        · exact absurd ⟨hs1, hs2⟩ hca
        · exact ih hpw.2 s hmem2 hs1 hs2
  · intro layout a hall
    unfold find_segment
    rw [List.find?_eq_none]
    intro s hs
    simpa using hall s hs

/-- C8 witness: the containment, completeness and none facts evaluated on a
one-segment layout. -/
theorem c8_find_segment_witness :
    ((Segment.mk 0 2 1) ∈ [Segment.mk 0 2 1] ∧
      (Segment.mk 0 2 1).start ≤ 1 ∧ 1 < (Segment.mk 0 2 1).end_) ∧
    find_segment [Segment.mk 0 2 1] 1 = some ⟨0, 2, 1⟩ ∧
    find_segment [Segment.mk 0 2 1] 5 = none :=
  ⟨c8_find_segment.1 [⟨0, 2, 1⟩] 1 ⟨0, 2, 1⟩ (by decide),
   c8_find_segment.2.1 [⟨0, 2, 1⟩] 1 (by decide) ⟨0, 2, 1⟩ (by decide) (by decide)
     (by decide),
   c8_find_segment.2.2.1 [⟨0, 2, 1⟩] 5 (by decide)⟩

/-- C9 counterexample: with a buffer of nonzero length 1, every message is
truncated to `slen - 1 = 0` characters, so a failed run ends with the buffer
still empty — the fallback write is truncated away too. -/
theorem c9_slen_one_counterexample :
    dfu_loader_flash none true none true (fun _ => true) 1 [] =
      some ⟨false, [Ev.prog 0], []⟩ ∧ (0 : Nat) < 1 := by decide

/-- C9 (corrected): for a status buffer of length at least 2, every failed
run of `dfu_loader_flash` leaves a non-empty message in the buffer (the
generic fallback covers paths that set none). -/
theorem c9_failure_status_message (load : Option Nat) (usbOk : Bool)
    (dev : Option Device) (mallocOk : Bool) (cmd : Nat → Bool) (slen : Nat)
    (buf0 : List Char) (r : RunOut) (hs : 2 ≤ slen)
    (h : dfu_loader_flash load usbOk dev mallocOk cmd slen buf0 = some r)
    (hf : r.success = false) : r.buf ≠ [] :=
  (flash_run_facts load usbOk dev mallocOk cmd slen buf0 r h).2.2.2.2.1 hs hf

/-- C9 witness: the failed load-file run with `slen = 2` holds the one-letter
truncation of its error message. -/
theorem c9_failure_status_message_witness :
    (RunOut.mk false [Ev.prog 0] ['E']).buf ≠ [] :=
  c9_failure_status_message none true none true (fun _ => true) 2 []
    ⟨false, [Ev.prog 0], ['E']⟩ (by decide) (by decide) rfl

/-- C10: the negotiated transfer size is never zero
(`parse_transfer_size ≥ 1`), and with a positive transfer size every flash
run over an image of length `L` returns (the write loop terminates), issuing
at most `L` data blocks. -/
theorem c10_termination :
    (∀ extra : List Nat, 1 ≤ parse_transfer_size extra) ∧
    (∀ (L : Nat) (usbOk : Bool) (d : Device) (mallocOk : Bool) (cmd : Nat → Bool)
       (slen : Nat) (buf0 : List Char), 1 ≤ d.transfer_size →
       ∃ r, dfu_loader_flash (some L) usbOk (some d) mallocOk cmd slen buf0 = some r ∧
         (dataLens r.evs).length ≤ L) := by
  refine ⟨parse_transfer_size_pos, ?_⟩
  intro L usbOk d mallocOk cmd slen buf0 hT
  cases hrun : dfu_loader_flash (some L) usbOk (some d) mallocOk cmd slen buf0 with
  | none =>
    exact absurd hrun
      (flash_total (some L) usbOk (some d) mallocOk cmd slen buf0
        (fun d' hd' => by cases hd'; exact hT))
  | some r =>
    exact ⟨r, rfl,
      (flash_run_facts (some L) usbOk (some d) mallocOk cmd slen buf0 r hrun).2.2.2.2.2
        L rfl⟩

/-- C10 witness: the default transfer size for an absent descriptor, and a
terminating one-byte run. -/
theorem c10_termination_witness :
    1 ≤ parse_transfer_size [] ∧
    ∃ r, dfu_loader_flash (some 1) true (some ⟨1, []⟩) true (fun _ => true) 0 [] =
        some r ∧ (dataLens r.evs).length ≤ 1 :=
  ⟨c10_termination.1 [],
   c10_termination.2 1 true ⟨1, []⟩ true (fun _ => true) 0 [] (by decide)⟩
